import Mathlib

/-!
Verification development for `pytermgui/parser.py`: a tokenizer pair for
terminal-markup strings and ANSI escape strings, together with the converters
`markup_to_ansi` and `ansi_to_markup`.

The Python source is shallowly embedded: strings are `List Char`, fallible
code returns `Except PyErr`, generators become lists, and the two regular
expressions (`RE_TAGS`, `RE_ANSI`) become explicit left-to-right scanners
with lazy-body semantics (`.` never matches a newline, `.*?` stops at the
first closing delimiter).
-/

namespace PTG

/-- Strings of the embedded program are plain character lists. -/
abbrev Str := List Char

/-- Coerce a Lean string literal to the embedded string type. -/
def cs (s : String) : Str := s.data

/-- The escape character `\x1b`. -/
def esc : Char := Char.ofNat 27

/-- Exceptions the Python source can raise, by kind.  `syntaxError` carries
the offending tag or code, as in the source's message; `unboundLocal` models
referencing `start` before assignment in `tokenize_markup`; `keyError`
models a failing dict lookup; `indexError` a list index out of range;
`valueError` a failing `int()` conversion; `assertionError` a failing
`assert`. -/
inductive PyErr where
  | syntaxError (offender : Str)
  | keyError
  | indexError
  | valueError
  | assertionError
  | unboundLocal
  deriving Repr, DecidableEq

deriving instance DecidableEq for Except

/-- `TokenAttribute` from the source: special attribute for a `Token`. -/
inductive TokenAttribute where
  | CLEAR
  | COLOR
  | STYLE
  | BACKGROUND_COLOR
  deriving Repr, DecidableEq

/-- `Token` from the source: result of a tokenized string. -/
structure Token where
  start : Nat
  stop : Nat
  plain : Option Str := none
  code : Option Str := none
  attr : Option TokenAttribute := none
  deriving Repr, DecidableEq

/-- `NAMES` from the source: style tag names; the index is the SGR code. -/
def NAMES : List Str :=
  [cs "/", cs "bold", cs "dim", cs "italic", cs "underline", cs "blink",
   cs "blink2", cs "inverse", cs "invisible", cs "strikethrough"]

/-- `UNSET_MAP` from the source, as an association list in insertion order. -/
def UNSET_MAP : List (Str × Str) :=
  [(cs "/bold", cs "22"), (cs "/dim", cs "22"), (cs "/italic", cs "23"),
   (cs "/underline", cs "24"), (cs "/blink", cs "25"), (cs "/blink2", cs "26"),
   (cs "/inverse", cs "27"), (cs "/invisible", cs "28"),
   (cs "/strikethrough", cs "29"), (cs "/fg", cs "39"), (cs "/bg", cs "49")]

/-- Modelled from the spec: `reset()` of the external `ansi_interface`
module (not under `src/`) "returns the canonical full-reset escape sequence
(`ESC [ 0 m`)". -/
def reset : Str := esc :: cs "[0m"

/-- Modelled from the spec: `foreground.names`, the external named-color
table (not under `src/`), "a mapping {name → palette_index}"; the parser's
own doc comment lists black..white as color codes 0..7. -/
def foregroundNames : List (Str × Nat) :=
  [(cs "black", 0), (cs "red", 1), (cs "green", 2), (cs "yellow", 3),
   (cs "blue", 4), (cs "magenta", 5), (cs "cyan", 6), (cs "white", 7)]

/-- Value of one lowercase hexadecimal digit (0 for other characters). -/
def hexDigitVal (c : Char) : Nat :=
  if c.isDigit then c.toNat - 48
  else if 'a' ≤ c ∧ c ≤ 'f' then c.toNat - 87
  else 0

/-- Modelled from the spec: `foreground.translate_hex` of the external
module (not under `src/`), the "hex-to-RGB conversion",
`translate_hex(hex_string) -> (r,g,b)`: each of the three pairs of hex
digits after the optional `#` becomes one decimal component. -/
def translate_hex (s : Str) : List Nat :=
  let h := if s.head? = some '#' then s.drop 1 else s
  let pair (i : Nat) : Nat :=
    hexDigitVal (h.getD i '0') * 16 + hexDigitVal (h.getD (i + 1) '0')
  [pair 0, pair 2, pair 4]

/-- Decimal digit string of a natural number (Python `str(n)` for `n ≥ 0`). -/
def natToStr (n : Nat) : Str := Nat.toDigits 10 n

/-- Python `str.isdigit()` for ASCII: nonempty and all digits. -/
def pyIsDigit (s : Str) : Bool := !s.isEmpty && s.all Char.isDigit

/-- Numeric value of an all-digit string. -/
def digitsToNat (s : Str) : Nat := s.foldl (fun a c => a * 10 + (c.toNat - 48)) 0

/-- Python `int(s)` on the strings this program feeds it: optional sign
followed by at least one digit; anything else raises `ValueError`. -/
def pyInt (s : Str) : Except PyErr Int :=
  match s with
  | '-' :: rest =>
      if pyIsDigit rest then .ok (-(digitsToNat rest : Int)) else .error .valueError
  | '+' :: rest =>
      if pyIsDigit rest then .ok (digitsToNat rest : Int) else .error .valueError
  | _ => if pyIsDigit s then .ok (digitsToNat s : Int) else .error .valueError

/-- Python whitespace characters, as used by `str.split()`. -/
def isPySpace (c : Char) : Bool :=
  c = ' ' || c = '\t' || c = '\n' || c = '\x0d' || c = '\x0b' || c = '\x0c'

/-- Python `str.split()` with no argument: split on whitespace runs,
dropping empty fields. -/
def pySplitAux : Str → Str → List Str
  | [], w => if w.isEmpty then [] else [w.reverse]
  | c :: rest, w =>
      if isPySpace c then
        if w.isEmpty then pySplitAux rest [] else w.reverse :: pySplitAux rest []
      else pySplitAux rest (c :: w)

/-- Python `str.split()`. -/
def pySplit (s : Str) : List Str := pySplitAux s []

/-- Python `";".join`. -/
def joinSemi : List Str → Str
  | [] => []
  | [x] => x
  | x :: xs => x ++ ';' :: joinSemi xs

/-- Python `" ".join`. -/
def joinSpace : List Str → Str
  | [] => []
  | [x] => x
  | x :: xs => x ++ ' ' :: joinSpace xs

/-- Characters allowed in a raw color tag: digits or `#;@abcdef`
(the source's membership test `char in "#;@abcdef"`). -/
def colorChar (c : Char) : Bool :=
  c.isDigit || c = '#' || c = ';' || c = '@' || ('a' ≤ c && c ≤ 'f')

/-- `_handle_color` from the source: classify a tag as a color and build
its SGR payload and background flag. -/
def handle_color (tag : Str) : Option (Str × Bool) :=
  if ¬ tag.all colorChar then none
  else
    let bg := tag.head? = some '@'
    let pretext : Str := if bg then cs "48;" else cs "38;"
    let tag1 := if bg then tag.drop 1 else tag
    let hexcolor := tag1.head? = some '#'
    let colorPre : Str :=
      if tag1.count ';' < 2 ∧ ¬hexcolor then cs "5;" else cs "2;"
    let tag2 :=
      if hexcolor then joinSemi ((translate_hex tag1).map natToStr) else tag1
    some (pretext ++ colorPre ++ tag2, bg)

/-- `_handle_named_color` from the source: resolve a (possibly
`@`-prefixed) color name through the external name table.  A tag with two
or more leading `@` whose stripped form is a known name makes the dict
lookup `foreground.names[tag]` fail with `KeyError`. -/
def handle_named_color (tag : Str) : Except PyErr (Option (Str × Bool)) :=
  if (foregroundNames.lookup (tag.dropWhile (· = '@'))).isNone then .ok none
  else
    let (background, tag1) : Str × Str :=
      if tag.head? = some '@' then (cs "@", tag.drop 1) else ([], tag)
    match foregroundNames.lookup tag1 with
    | none => .error .keyError
    | some v => .ok (handle_color (background ++ natToStr v))

/-- `Token.to_name` from the source: convert a token to a named attribute.
All the raise-paths of the Python are modelled: the explicit `SyntaxError`
for a composite code with fewer than three `;`-fields, the `IndexError` of
`NAMES[index]`, the `ValueError` of `int(numbers[2])`, and the failing
`assert` when both fields are absent. -/
def Token.to_name (t : Token) : Except PyErr Str :=
  match t.plain with
  | some p => .ok p
  | none =>
  match t.code with
  | none => .error .assertionError
  | some c =>
    if pyIsDigit c then
      if (UNSET_MAP.map Prod.snd).contains c then
        match UNSET_MAP.find? (fun kv => kv.2 = c) with
        | some kv => .ok kv.1
        | none => .error .keyError
      else
        let index := digitsToNat c
        if h : index < NAMES.length then .ok (NAMES.get ⟨index, h⟩)
        else .error .indexError
    else
      let numbers := c.splitOn ';'
      let out : Str := if numbers.head? = some (cs "48") then cs "@" else []
      if numbers.length < 3 then .error (.syntaxError c)
      else do
        let simple ← pyInt (numbers.getD 2 [])
        if (foregroundNames.map Prod.snd).contains simple.toNat ∧ 0 ≤ simple then
          match foregroundNames.find? (fun kv => (kv.2 : Int) = simple) with
          | some kv => .ok (out ++ kv.1)
          | none => .error .keyError
        else
          .ok (out ++ joinSemi (numbers.drop 2))

/-- `Token.to_sequence` from the source: convert a token to an ANSI
sequence (plain text passes through; the failing `assert` when both fields
are absent is modelled). -/
def Token.to_sequence (t : Token) : Except PyErr Str :=
  match t.code with
  | some c => .ok (esc :: '[' :: c ++ [ 'm'])
  | none =>
    match t.plain with
    | some p => .ok p
    | none => .error .assertionError

/-! ### The `RE_TAGS` scanner

`RE_TAGS = ((\\*)\[([a-z0-9!#@\/].*?)\])`: an optional run of backslashes,
`[`, a body whose first character is in the class `[a-z0-9!#@/]` followed by
a lazy run of non-newline characters, then `]`.  `finditer` yields the
leftmost, non-overlapping matches in order. -/

/-- First character class of a tag body: `[a-z0-9!#@\/]`. -/
def tagClass (c : Char) : Bool :=
  ('a' ≤ c && c ≤ 'z') || c.isDigit || c = '!' || c = '#' || c = '@' || c = '/'

/-- Lazy scan to the first `]`; `.` does not match a newline.  Returns the
body characters before the `]` and the remainder after it. -/
def findClose : Str → Option (Str × Str)
  | [] => none
  | c :: rest =>
    if c = ']' then some ([], rest)
    else if c = '\n' then none
    else (findClose rest).map (fun br => (c :: br.1, br.2))

/-- Split a maximal run of leading backslashes (the greedy `(\\*)`). -/
def splitBackslashes : Str → Nat × Str
  | [] => (0, [])
  | c :: rest =>
      if c = '\\' then ((splitBackslashes rest).1 + 1, (splitBackslashes rest).2)
      else (0, c :: rest)

/-- Try to match `RE_TAGS` at the start of `s`: on success, the backslash
count, total match length, tag body and remainder after the match. -/
def tryTag (s : Str) : Option (Nat × Nat × Str × Str) :=
  let k := (splitBackslashes s).1
  match (splitBackslashes s).2 with
  | c :: c0 :: s2 =>
      if c = '[' ∧ tagClass c0 then
        (findClose s2).map (fun br => (k, k + 3 + br.1.length, c0 :: br.1, br.2))
      else none
  | _ => none

/-- Leftmost match of `RE_TAGS` in `s`: skipped prefix length, backslash
count, match length, body, remainder. -/
def findTag : Str → Option (Nat × Nat × Nat × Str × Str)
  | [] => none
  | c :: rest =>
    match tryTag (c :: rest) with
    | some (k, len, body, rem) => some (0, k, len, body, rem)
    | none => (findTag rest).map (fun r => (r.1 + 1, r.2))

/-- One unit of the `RE_TAGS` scan: a match together with the plain text
skipped before it, or the trailing text after the last match. -/
inductive MChunk where
  | grp (pre : Str) (escs : Nat) (body : Str) (start stop : Nat)
  | tail (rest : Str)
  deriving Repr, DecidableEq

/-- Fuel-indexed worker for the `RE_TAGS` chunk scan; each match strictly
shrinks the remainder, so fuel `s.length` always suffices. -/
def mchunksGo : Nat → Str → Nat → List MChunk
  | 0, s, _ => [.tail s]
  | fuel + 1, s, off =>
      match findTag s with
      | none => [.tail s]
      | some (skip, k, len, body, rem) =>
          .grp (s.take skip) k body (off + skip) (off + skip + len) ::
            mchunksGo fuel rem (off + skip + len)

/-- Cut a string into `RE_TAGS` scanner chunks, tracking absolute offsets
(the spans `match.span()` reports). -/
def mchunks (s : Str) (off : Nat) : List MChunk := mchunksGo s.length s off

/-! ### The `RE_ANSI` scanner

`RE_ANSI = (?:\x1b\[(.*?)m)|(?:\x1b\](.*?)\x1b\\)`: an SGR sequence
`ESC [ params m` (lazy params) or an OSC-style sequence
`ESC ] params ESC \`.  Only the SGR branch has a capturing group the source
reads, so OSC matches produce `sgr = none`. -/

/-- Lazy scan to the first `m` (`.` does not match a newline). -/
def findM : Str → Option (Str × Str)
  | [] => none
  | c :: rest =>
    if c = 'm' then some ([], rest)
    else if c = '\n' then none
    else (findM rest).map (fun br => (c :: br.1, br.2))

/-- Lazy scan to the first `ESC \` pair (`.` does not match a newline). -/
def findOsc : Str → Option (Str × Str)
  | [] => none
  | c :: rest =>
    if c = esc ∧ rest.head? = some '\\' then some ([], rest.drop 1)
    else if c = '\n' then none
    else (findOsc rest).map (fun br => (c :: br.1, br.2))

/-- Try to match `RE_ANSI` at the start of `s`: on success, the SGR
parameter string (`none` for the OSC branch), the match length and the
remainder. -/
def tryAnsi (s : Str) : Option (Option Str × Nat × Str) :=
  match s with
  | c1 :: c2 :: rest =>
      if c1 = esc ∧ c2 = '[' then
        (findM rest).map (fun pr => (some pr.1, pr.1.length + 3, pr.2))
      else if c1 = esc ∧ c2 = ']' then
        (findOsc rest).map (fun pr => (none, pr.1.length + 4, pr.2))
      else none
  | _ => none

/-- Leftmost match of `RE_ANSI` in `s`: skipped prefix length, SGR params,
match length, remainder. -/
def findAnsi : Str → Option (Nat × Option Str × Nat × Str)
  | [] => none
  | c :: rest =>
    match tryAnsi (c :: rest) with
    | some (sgr, len, rem) => some (0, sgr, len, rem)
    | none => (findAnsi rest).map (fun r => (r.1 + 1, r.2))

/-- One unit of the `RE_ANSI` scan: a match together with the plain text
skipped before it, or the trailing text after the last match. -/
inductive AChunk where
  | seq (pre : Str) (sgr : Option Str) (start stop : Nat)
  | tail (rest : Str)
  deriving Repr, DecidableEq

/-- Fuel-indexed worker for the `RE_ANSI` chunk scan. -/
def achunksGo : Nat → Str → Nat → List AChunk
  | 0, s, _ => [.tail s]
  | fuel + 1, s, off =>
      match findAnsi s with
      | none => [.tail s]
      | some (skip, sgr, len, rem) =>
          .seq (s.take skip) sgr (off + skip) (off + skip + len) ::
            achunksGo fuel rem (off + skip + len)

/-- Cut a string into `RE_ANSI` scanner chunks, tracking absolute offsets. -/
def achunks (s : Str) (off : Nat) : List AChunk := achunksGo s.length s off

/-- The source text a markup scanner chunk covers: skipped plain text, the
backslashes, the bracketed group; or the trailing text. -/
def MChunk.text : MChunk → Str
  | .grp pre k body _ _ => pre ++ List.replicate k '\\' ++ '[' :: body ++ [']']
  | .tail rest => rest

/-- The reset-termination step shared by `tokenize_ansi` and
`markup_to_ansi`: append the canonical full-reset sequence if the string
does not already end with it. -/
def terminateReset (s : Str) : Str :=
  if reset.isSuffixOf s then s else s ++ reset

/-- Relation between adjacent tokens of a `tokenize_ansi` stream: a token
directly following another is either plain text or differs in code from
its predecessor (the dedup contract). -/
def dedupStep (a b : Token) : Prop := b.plain.isSome ∨ a.code ≠ b.code

instance (a b : Token) : Decidable (dedupStep a b) := by
  unfold dedupStep
  infer_instance

/-! ### Tokenizers -/

/-- Resolve a single markup tag word, in the source's order: `NAMES`,
`UNSET_MAP`, named color, raw color; otherwise the `SyntaxError`
`Markup tag "{tag}" is not recognized.` -/
def resolveTag (tag : Str) : Except PyErr (Str × TokenAttribute) :=
  match NAMES.findIdx? (· = tag) with
  | some i => .ok (natToStr i, if tag = cs "/" then .CLEAR else .STYLE)
  | none =>
  match UNSET_MAP.lookup tag with
  | some v => .ok (v, .CLEAR)
  | none => do
    match ← handle_named_color tag with
    | some (code, bg) => .ok (code, if bg then .BACKGROUND_COLOR else .COLOR)
    | none =>
      match handle_color tag with
      | some (code, bg) => .ok (code, if bg then .BACKGROUND_COLOR else .COLOR)
      | none => .error (.syntaxError tag)

/-- One code token per resolved tag word, as yielded inside the tag loop of
`tokenize_markup`. -/
def resolveTagToken (s' e : Nat) (tag : Str) : Except PyErr Token := do
  let (code, a) ← resolveTag tag
  pure { start := s', stop := e, code := some code, attr := some a }

/-- Emission pass of `tokenize_markup` over the scanner chunks.  `span` is
the `(start, end)` the Python generator carries across iterations: `none`
until the first match, so that the trailing-text yield on a matchless
nonempty input reads `start` before assignment (`UnboundLocalError`).
A group chunk emits, in order: the pending plain text (carrying the span
of the match, as in the source), the collapsed backslashes, then either the
escaped body remainder or one code token per whitespace-separated tag. -/
def elabM : List MChunk → Option (Nat × Nat) → Except PyErr (List Token)
  | [], _ => .ok []
  | .tail rest :: _, span =>
      if rest.isEmpty then .ok []
      else
        match span with
        | none => .error .unboundLocal
        | some (s, e) => .ok [{ start := s, stop := e, plain := some rest }]
  | .grp pre k body s e :: chunks, _ =>
      let preToks : List Token :=
        if pre.isEmpty then [] else [{ start := s, stop := e, plain := some pre }]
      let backslashes := k / 2
      let bsToks : List Token :=
        if backslashes > 0 then
          [{ start := s, stop := e, plain := some (List.replicate backslashes '\\') }]
        else []
      let s' := s + backslashes * 2
      if k % 2 = 1 then do
        let restToks ← elabM chunks (some (s', e))
        .ok (preToks ++ bsToks ++
          [{ start := s', stop := e, plain := some (body.drop k) }] ++ restToks)
      else do
        let tagToks ← (pySplit body).mapM (resolveTagToken s' e)
        let restToks ← elabM chunks (some (s', e))
        .ok (preToks ++ bsToks ++ tagToks ++ restToks)

/-- `tokenize_markup` from the source, as the list of yielded tokens or the
exception the generator raises. -/
def tokenize_markup (text : Str) : Except PyErr (List Token) :=
  elabM (mchunks text 0) none

/-- Emission pass of `tokenize_ansi` over the scanner chunks.  `previous`
is the last yielded token; a matched sequence is yielded only if `previous`
is absent or its `code` differs from the match's parameter string.  The
`(start, stop)` pair is initialized to `(0, 0)` in the source and carries
the span of the last match for the trailing-text yield. -/
def elabA : List AChunk → Option Token → Nat × Nat → List Token
  | [], _, _ => []
  | .tail rest :: _, _, (s, e) =>
      if rest.isEmpty then [] else [{ start := s, stop := e, plain := some rest }]
  | .seq pre sgr s e :: chunks, prev, _ =>
      let preTok : Token := { start := s, stop := e, plain := some pre }
      let prev1 := if pre.isEmpty then prev else some preTok
      let preToks : List Token := if pre.isEmpty then [] else [preTok]
      let tok : Token := { start := s, stop := e, code := sgr }
      match prev1 with
      | none => preToks ++ tok :: elabA chunks (some tok) (s, e)
      | some p =>
          if p.code = sgr then preToks ++ elabA chunks prev1 (s, e)
          else preToks ++ tok :: elabA chunks (some tok) (s, e)

/-- `tokenize_ansi` from the source: appends the reset sequence if the text
does not already end with it, then scans.  Always total. -/
def tokenize_ansi (text : Str) : List Token :=
  elabA (achunks (terminateReset text) 0) none (0, 0)

/-! ### Converters -/

/-- `markup_to_ansi` from the source: concatenate every token's sequence
form, then append a reset if the result does not end with one. -/
def markup_to_ansi (markup : Str) : Except PyErr Str := do
  let toks ← tokenize_markup markup
  let seqs ← toks.mapM Token.to_sequence
  let ansi := seqs.flatten
  .ok (terminateReset ansi)

/-- The fold inside `ansi_to_markup`.  Note the source never resets
`in_attr` to false: once a code token has been seen, every later plain
token flushes a bracket group, even an empty one. -/
def amGo : List Token → Str → Bool → List Str → Except PyErr Str
  | [], markup, _, bracket => .ok (markup ++ '[' :: joinSpace bracket ++ [']'])
  | t :: ts, markup, inAttr, bracket =>
      match t.code with
      | some _ => do
          let n ← t.to_name
          amGo ts markup true (bracket ++ [n])
      | none =>
          let markup1 :=
            if inAttr then markup ++ '[' :: joinSpace bracket ++ [']'] else markup
          let bracket1 := if inAttr then [] else bracket
          do
            let n ← t.to_name
            amGo ts (markup1 ++ n) inAttr bracket1

/-- `ansi_to_markup` from the source. -/
def ansi_to_markup (ansi : Str) : Except PyErr Str :=
  amGo (tokenize_ansi ansi) [] false []


/-! ### Round-trip infrastructure

`tokData` projects a token to the pair the converters actually consume;
`render` assigns every plain character the list of SGR codes applied
before it, which is the resolved-attribute semantics of a token stream. -/

/-- The span-insensitive content of a token. -/
def tokData (t : Token) : Option Str × Option Str := (t.plain, t.code)

/-- Resolved-attribute semantics of a token stream: each plain character
paired with the codes applied before it. -/
def render : List (Option Str × Option Str) → List Str → List (Char × List Str)
  | [], _ => []
  | (some p, _) :: ds, st => p.map (fun ch => (ch, st)) ++ render ds st
  | (none, some c) :: ds, st => render ds (st ++ [c])
  | (none, none) :: ds, st => render ds st

/-- Plain segments that survive both scanners unchanged: no escape
character, no opening bracket, no backslash. -/
def validPlain (p : Str) : Bool := p.all fun c => !(c = esc || c = '[' || c = '\\')

/-- The tag begins with a character of the bracket-body class. -/
def tagHeadOk : Str → Bool
  | [] => false
  | c :: _ => tagClass c

/-- Tags the markup scanner keeps in one piece: class-opening head and no
`]`, newline or whitespace. -/
def tagSafe (t : Str) : Bool :=
  tagHeadOk t && t.all fun c => !(c = ']' || c = '\n' || isPySpace c)

/-- SGR payloads the ANSI scanner keeps in one piece: nonempty digits and
semicolons. -/
def codeSafe (c : Str) : Bool := !c.isEmpty && c.all fun ch => ch.isDigit || ch = ';'

/-- The code a tag resolves to (empty for unrecognized tags). -/
def codeOf (t : Str) : Str :=
  match resolveTag t with
  | .ok (c, _) => c
  | .error _ => []

/-- The symbolic name the tag's code converts back to. -/
def nameOf (t : Str) : Str :=
  match Token.to_name { start := 0, stop := 0, code := some (codeOf t) } with
  | .ok n => n
  | .error _ => []

/-- A tag that round-trips: scanner-safe, resolving to a scanner-safe code
whose name is again scanner-safe and resolves back to the same code. -/
def goodTag (t : Str) : Bool :=
  tagSafe t &&
  match resolveTag t with
  | .error _ => false
  | .ok (c, _) =>
      codeSafe c &&
      match Token.to_name { start := 0, stop := 0, code := some c } with
      | .error _ => false
      | .ok n =>
          tagSafe n &&
          match resolveTag n with
          | .error _ => false
          | .ok (c', _) => c' = c

/-- One markup segment: a round-tripping tag followed by a nonempty clean
plain text. -/
def goodSeg (tp : Str × Str) : Bool :=
  goodTag tp.1 && validPlain tp.2 && !tp.2.isEmpty

/-- Markup built from an optional leading plain segment and one bracket
group per segment, each followed by its plain text. -/
def buildMarkup (p0 : Str) (segs : List (Str × Str)) : Str :=
  p0 ++ (segs.map fun tp => '[' :: tp.1 ++ ']' :: tp.2).flatten

/-- The `RE_TAGS` chunks of `buildMarkup`. -/
def buildChunks : List (Str × Str) → Str → Nat → List MChunk
  | [], p, _ => [.tail p]
  | (t, pl) :: rest, p, off =>
      .grp p 0 t (off + p.length) (off + p.length + t.length + 2) ::
        buildChunks rest pl (off + p.length + t.length + 2)

/-- The token data `tokenize_markup` yields on `buildMarkup`. -/
def tokDataOf : List (Str × Str) → Str → List (Option Str × Option Str)
  | [], p => if p.isEmpty then [] else [(some p, none)]
  | (t, pl) :: rest, p =>
      (if p.isEmpty then [] else [(some p, none)]) ++
        (none, some (codeOf t)) :: tokDataOf rest pl

/-- The ANSI string `markup_to_ansi` assembles before reset termination. -/
def ansiOf : List (Str × Str) → Str → Str
  | [], p => p
  | (t, pl) :: rest, p => p ++ esc :: '[' :: codeOf t ++ 'm' :: ansiOf rest pl

/-- The `RE_ANSI` chunks of `ansiOf _ _ ++ reset`. -/
def buildAChunks : List (Str × Str) → Str → Nat → List AChunk
  | [], p, off =>
      [.seq p (some (cs "0")) (off + p.length) (off + p.length + 4), .tail []]
  | (t, pl) :: rest, p, off =>
      .seq p (some (codeOf t)) (off + p.length) (off + p.length + (codeOf t).length + 3) ::
        buildAChunks rest pl (off + p.length + (codeOf t).length + 3)

/-- The token data `tokenize_ansi` yields on the assembled ANSI string. -/
def ansiTokDataOf : List (Str × Str) → Str → List (Option Str × Option Str)
  | [], p => (if p.isEmpty then [] else [(some p, none)]) ++ [(none, some (cs "0"))]
  | (t, pl) :: rest, p =>
      (if p.isEmpty then [] else [(some p, none)]) ++
        (none, some (codeOf t)) :: ansiTokDataOf rest pl

/-- The markup string the `ansi_to_markup` fold produces, from an arbitrary
fold state. -/
def amResult : List (Str × Str) → Str → Str → Bool → List Str → Str
  | [], p, m, ia, br =>
      let m1 := if p.isEmpty then m
        else (if ia then m ++ '[' :: joinSpace br ++ [']'] else m) ++ p
      let br1 := if p.isEmpty then br else if ia then [] else br
      m1 ++ '[' :: joinSpace (br1 ++ [cs "/"]) ++ [']']
  | (t, pl) :: rest, p, m, ia, br =>
      let m1 := if p.isEmpty then m
        else (if ia then m ++ '[' :: joinSpace br ++ [']'] else m) ++ p
      let br1 := if p.isEmpty then br else if ia then [] else br
      amResult rest pl m1 true (br1 ++ [nameOf t])

/-- The ANSI text one token datum contributes (`Token.to_sequence` at the
data level). -/
def dataSeq (d : Option Str × Option Str) : Str :=
  match d.2 with
  | some c => esc :: '[' :: c ++ ['m']
  | none => d.1.getD []

/-- The plain text of the final segment. -/
def lastPl : List (Str × Str) → Str
  | [] => []
  | [tp] => tp.2
  | _ :: rest => lastPl rest

/-- A tag some resolver accepts. -/
def tagRecognized (t : Str) : Bool :=
  match resolveTag t with
  | .ok _ => true
  | .error _ => false

/-- Modelled from the spec: the hypothesis of the round-trip property, "a
well-formed markup string `m` using only single, non-duplicated tags per
group" — every bracket group the scanner finds is unescaped and holds
exactly one recognized tag (trivially non-duplicated). -/
def specWellFormedSingle (m : Str) : Bool :=
  (mchunks m 0).all fun chunk =>
    match chunk with
    | .tail _ => true
    | .grp _ escs body _ _ =>
        escs == 0 && (pySplit body).length == 1 && (pySplit body).all tagRecognized

/-! ### Scanner correctness lemmas -/

theorem splitBackslashes_eq (s : Str) :
    s = List.replicate (splitBackslashes s).1 '\\' ++ (splitBackslashes s).2 := by
  induction s with
  | nil => rfl
  | cons c rest ih =>
      by_cases hc : c = '\\'
      · subst hc
        simp only [splitBackslashes, if_pos rfl]
        conv_lhs => rw [ih]
        simp [List.replicate_succ]
      · simp [splitBackslashes, hc]

theorem findClose_eq {s b r : Str} (h : findClose s = some (b, r)) :
    s = b ++ ']' :: r ∧ ']' ∉ b ∧ '\n' ∉ b := by
  induction s generalizing b with
  | nil => simp [findClose] at h
  | cons c rest ih =>
      by_cases hc : c = ']'
      · subst hc
        simp only [findClose, if_pos rfl, Option.some.injEq, Prod.mk.injEq] at h
        obtain ⟨rfl, rfl⟩ := h
        simp
      · by_cases hn : c = '\n'
        · simp [findClose, hc, hn] at h
        · simp only [findClose, if_neg hc, if_neg hn, Option.map_eq_some'] at h
          obtain ⟨⟨b', r'⟩, hbr, heq⟩ := h
          simp only [Prod.mk.injEq] at heq
          obtain ⟨rfl, rfl⟩ := heq
          obtain ⟨h1, h2, h3⟩ := ih hbr
          refine ⟨by simp [h1], ?_, ?_⟩
          · simp only [List.mem_cons, not_or]
            exact ⟨fun hh => hc hh.symm, h2⟩
          · simp only [List.mem_cons, not_or]
            exact ⟨fun hh => hn hh.symm, h3⟩

theorem tryTag_eq {s : Str} {k len : Nat} {body rem : Str}
    (h : tryTag s = some (k, len, body, rem)) :
    s = List.replicate k '\\' ++ '[' :: body ++ ']' :: rem ∧
      len = k + body.length + 2 ∧ body ≠ [] := by
  have hsp := splitBackslashes_eq s
  unfold tryTag at h
  rcases hs1 : (splitBackslashes s).2 with _ | ⟨c, s1t⟩
  · rw [hs1] at h; exact absurd h (by simp)
  rcases s1t with _ | ⟨c0, s2⟩
  · rw [hs1] at h; exact absurd h (by simp)
  rw [hs1] at h hsp
  dsimp only at h
  by_cases hcc : c = '[' ∧ tagClass c0
  · rw [if_pos hcc, Option.map_eq_some'] at h
    obtain ⟨⟨bt, r⟩, hfc, heq⟩ := h
    simp only [Prod.mk.injEq] at heq
    obtain ⟨rfl, hlen, hbody, rfl⟩ := heq
    obtain ⟨h1, -, -⟩ := findClose_eq hfc
    subst hbody
    refine ⟨?_, by simp at hlen ⊢; omega, by simp⟩
    conv_lhs => rw [hsp]
    rw [hcc.1, h1]
    simp
  · rw [if_neg hcc] at h; exact absurd h (by simp)

theorem findTag_spec {s : Str} {skip k len : Nat} {body rem : Str}
    (h : findTag s = some (skip, k, len, body, rem)) :
    ∃ pre : Str, s = pre ++ List.replicate k '\\' ++ '[' :: body ++ ']' :: rem ∧
      pre.length = skip ∧ len = k + body.length + 2 ∧ body ≠ [] := by
  induction s generalizing skip with
  | nil => simp [findTag] at h
  | cons c rest ih =>
      rw [findTag] at h
      rcases htry : tryTag (c :: rest) with _ | ⟨k', len', body', rem'⟩
      · rw [htry, Option.map_eq_some'] at h
        obtain ⟨⟨sk, rb⟩, hf, heq⟩ := h
        simp only [Prod.mk.injEq] at heq
        obtain ⟨rfl, hrb⟩ := heq
        rw [show rb = (k, len, body, rem) from hrb] at hf
        obtain ⟨pre, h1, h2, h3, h4⟩ := ih hf
        exact ⟨c :: pre, by simp [h1], by simp [h2], h3, h4⟩
      · rw [htry] at h
        simp only [Option.some.injEq, Prod.mk.injEq] at h
        obtain ⟨rfl, rfl, rfl, rfl, rfl⟩ := h
        obtain ⟨h1, h2, h3⟩ := tryTag_eq htry
        exact ⟨[], by simpa using h1, rfl, h2, h3⟩

theorem findTag_rem_lt {s : Str} {skip k len : Nat} {body rem : Str}
    (h : findTag s = some (skip, k, len, body, rem)) : rem.length < s.length := by
  obtain ⟨pre, h1, -, -, -⟩ := findTag_spec h
  subst h1
  simp
  omega

theorem mchunksGo_congr :
    ∀ f1 f2 : Nat, ∀ s : Str, ∀ off : Nat, s.length ≤ f1 → s.length ≤ f2 →
      mchunksGo f1 s off = mchunksGo f2 s off := by
  intro f1
  induction f1 with
  | zero =>
      intro f2 s off h1 _
      have hs : s = [] := List.length_eq_zero.mp (Nat.le_zero.mp h1)
      subst hs
      cases f2 with
      | zero => rfl
      | succ f2 => simp [mchunksGo, findTag]
  | succ f1 ih =>
      intro f2 s off h1 h2
      cases f2 with
      | zero =>
          have hs : s = [] := List.length_eq_zero.mp (Nat.le_zero.mp h2)
          subst hs
          simp [mchunksGo, findTag]
      | succ f2 =>
          rw [mchunksGo, mchunksGo]
          rcases hf : findTag s with _ | ⟨skip, k, len, body, rem⟩
          · rfl
          · have hlt := findTag_rem_lt hf
            dsimp only
            rw [ih f2 rem (off + skip + len) (by omega) (by omega)]

/-- The natural unfolding of `mchunks`. -/
theorem mchunks_eq (s : Str) (off : Nat) :
    mchunks s off =
      match findTag s with
      | none => [.tail s]
      | some (skip, k, len, body, rem) =>
          .grp (s.take skip) k body (off + skip) (off + skip + len) ::
            mchunks rem (off + skip + len) := by
  rcases hn : s.length with _ | n
  · have hs : s = [] := List.length_eq_zero.mp hn
    subst hs
    simp [mchunks, mchunksGo, findTag]
  · unfold mchunks
    rw [hn, mchunksGo]
    rcases hf : findTag s with _ | ⟨skip, k, len, body, rem⟩
    · rfl
    · have hlt := findTag_rem_lt hf
      dsimp only
      rw [mchunksGo_congr n rem.length rem (off + skip + len) (by omega) le_rfl]

theorem findM_eq {s p r : Str} (h : findM s = some (p, r)) :
    s = p ++ 'm' :: r ∧ 'm' ∉ p ∧ '\n' ∉ p := by
  induction s generalizing p with
  | nil => simp [findM] at h
  | cons c rest ih =>
      by_cases hc : c = 'm'
      · subst hc
        simp only [findM, if_pos rfl, Option.some.injEq, Prod.mk.injEq] at h
        obtain ⟨rfl, rfl⟩ := h
        simp
      · by_cases hn : c = '\n'
        · simp [findM, hc, hn] at h
        · simp only [findM, if_neg hc, if_neg hn, Option.map_eq_some'] at h
          obtain ⟨⟨p', r'⟩, hpr, heq⟩ := h
          simp only [Prod.mk.injEq] at heq
          obtain ⟨rfl, rfl⟩ := heq
          obtain ⟨h1, h2, h3⟩ := ih hpr
          refine ⟨by simp [h1], ?_, ?_⟩
          · simp only [List.mem_cons, not_or]
            exact ⟨fun hh => hc hh.symm, h2⟩
          · simp only [List.mem_cons, not_or]
            exact ⟨fun hh => hn hh.symm, h3⟩

theorem findOsc_eq {s p r : Str} (h : findOsc s = some (p, r)) :
    s = p ++ esc :: '\\' :: r := by
  induction s generalizing p with
  | nil => simp [findOsc] at h
  | cons c rest ih =>
      by_cases hc : c = esc ∧ rest.head? = some '\\'
      · rw [findOsc, if_pos hc] at h
        simp only [Option.some.injEq, Prod.mk.injEq] at h
        obtain ⟨rfl, rfl⟩ := h
        rcases rest with _ | ⟨c2, rest2⟩
        · simp at hc
        · obtain ⟨rfl, hc2⟩ := hc
          simp at hc2
          simp [hc2]
      · rw [findOsc, if_neg hc] at h
        by_cases hn : c = '\n'
        · rw [if_pos hn] at h; exact absurd h (by simp)
        · rw [if_neg hn, Option.map_eq_some'] at h
          obtain ⟨⟨p', r'⟩, hpr, heq⟩ := h
          simp only [Prod.mk.injEq] at heq
          obtain ⟨rfl, rfl⟩ := heq
          simp [ih hpr]

theorem tryAnsi_len {s : Str} {sgr : Option Str} {len : Nat} {rem : Str}
    (h : tryAnsi s = some (sgr, len, rem)) :
    s.length = len + rem.length ∧ 3 ≤ len := by
  unfold tryAnsi at h
  rcases s with _ | ⟨c1, _ | ⟨c2, rest⟩⟩
  · exact absurd h (by simp)
  · exact absurd h (by simp)
  · dsimp only at h
    by_cases h1 : c1 = esc ∧ c2 = '['
    · rw [if_pos h1, Option.map_eq_some'] at h
      obtain ⟨⟨p, r⟩, hpr, heq⟩ := h
      simp only [Prod.mk.injEq] at heq
      obtain ⟨-, rfl, rfl⟩ := heq
      obtain ⟨hrec, -, -⟩ := findM_eq hpr
      simp [hrec]
      omega
    · rw [if_neg h1] at h
      by_cases h2 : c1 = esc ∧ c2 = ']'
      · rw [if_pos h2, Option.map_eq_some'] at h
        obtain ⟨⟨p, r⟩, hpr, heq⟩ := h
        simp only [Prod.mk.injEq] at heq
        obtain ⟨-, rfl, rfl⟩ := heq
        have hrec := findOsc_eq hpr
        simp [hrec]
        omega
      · rw [if_neg h2] at h
        exact absurd h (by simp)

theorem findAnsi_len {s : Str} {skip : Nat} {sgr : Option Str} {len : Nat}
    {rem : Str} (h : findAnsi s = some (skip, sgr, len, rem)) :
    s.length = skip + len + rem.length ∧ 3 ≤ len := by
  induction s generalizing skip with
  | nil => simp [findAnsi] at h
  | cons c rest ih =>
      rw [findAnsi] at h
      rcases htry : tryAnsi (c :: rest) with _ | ⟨sgr', len', rem'⟩
      · rw [htry, Option.map_eq_some'] at h
        obtain ⟨⟨sk, rb⟩, hf, heq⟩ := h
        simp only [Prod.mk.injEq] at heq
        obtain ⟨rfl, hrb⟩ := heq
        rw [show rb = (sgr, len, rem) from hrb] at hf
        obtain ⟨h1, h2⟩ := ih hf
        constructor
        · simp [h1]; omega
        · exact h2
      · rw [htry] at h
        simp only [Option.some.injEq, Prod.mk.injEq] at h
        obtain ⟨rfl, rfl, rfl, rfl⟩ := h
        obtain ⟨h1, h2⟩ := tryAnsi_len htry
        exact ⟨by simpa using h1, h2⟩

theorem findAnsi_rem_lt {s : Str} {skip : Nat} {sgr : Option Str} {len : Nat}
    {rem : Str} (h : findAnsi s = some (skip, sgr, len, rem)) :
    rem.length < s.length := by
  obtain ⟨h1, h2⟩ := findAnsi_len h
  omega

theorem achunksGo_congr :
    ∀ f1 f2 : Nat, ∀ s : Str, ∀ off : Nat, s.length ≤ f1 → s.length ≤ f2 →
      achunksGo f1 s off = achunksGo f2 s off := by
  intro f1
  induction f1 with
  | zero =>
      intro f2 s off h1 _
      have hs : s = [] := List.length_eq_zero.mp (Nat.le_zero.mp h1)
      subst hs
      cases f2 with
      | zero => rfl
      | succ f2 => simp [achunksGo, findAnsi]
  | succ f1 ih =>
      intro f2 s off h1 h2
      cases f2 with
      | zero =>
          have hs : s = [] := List.length_eq_zero.mp (Nat.le_zero.mp h2)
          subst hs
          simp [achunksGo, findAnsi]
      | succ f2 =>
          rw [achunksGo, achunksGo]
          rcases hf : findAnsi s with _ | ⟨skip, sgr, len, rem⟩
          · rfl
          · have hlt := findAnsi_rem_lt hf
            dsimp only
            rw [ih f2 rem (off + skip + len) (by omega) (by omega)]

/-- The natural unfolding of `achunks`. -/
theorem achunks_eq (s : Str) (off : Nat) :
    achunks s off =
      match findAnsi s with
      | none => [.tail s]
      | some (skip, sgr, len, rem) =>
          .seq (s.take skip) sgr (off + skip) (off + skip + len) ::
            achunks rem (off + skip + len) := by
  rcases hn : s.length with _ | n
  · have hs : s = [] := List.length_eq_zero.mp hn
    subst hs
    simp [achunks, achunksGo, findAnsi]
  · unfold achunks
    rw [hn, achunksGo]
    rcases hf : findAnsi s with _ | ⟨skip, sgr, len, rem⟩
    · rfl
    · have hlt := findAnsi_rem_lt hf
      dsimp only
      rw [achunksGo_congr n rem.length rem (off + skip + len) (by omega) le_rfl]

/-! ### Reset-termination lemmas -/

theorem terminateReset_endsWith (s : Str) : reset.isSuffixOf (terminateReset s) := by
  by_cases h : reset.isSuffixOf s
  · rw [terminateReset, if_pos h]
    exact h
  · rw [terminateReset, if_neg h]
    exact List.isSuffixOf_iff_suffix.mpr (List.suffix_append s reset)

theorem terminateReset_of_suffix {s : Str} (h : reset.isSuffixOf s) :
    terminateReset s = s := by
  rw [terminateReset, if_pos h]

theorem payload_selector {pretext colorPre : Str} (tag2 : Str)
    (h3 : pretext.length = 3) (h2 : colorPre.length = 2) :
    ((pretext ++ colorPre ++ tag2).drop 3).take 2 = colorPre := by
  rw [List.append_assoc, ← h3, List.drop_left, ← h2, List.take_left]

/-! ### Claims -/

/-- C10: on the empty input, `markup_to_ansi` returns exactly the reset
sequence `"\x1b[0m"` and `ansi_to_markup` returns exactly `"[/]"` (the
implicitly appended reset becomes a single clear-all tag group). -/
theorem C10_empty_inputs :
    markup_to_ansi (cs "") = .ok (cs "\x1b[0m") ∧
      ansi_to_markup (cs "") = .ok (cs "[/]") := by
  decide

/-- C8: every successful `markup_to_ansi` result ends with the canonical
full-reset sequence `"\x1b[0m"`, and applying the reset-termination step to
the result a second time leaves it unchanged. -/
theorem C8_terminated (m r : Str) (h : markup_to_ansi m = .ok r) :
    reset.isSuffixOf r ∧ terminateReset r = r := by
  unfold markup_to_ansi at h
  cases htok : tokenize_markup m with
  | error e => rw [htok] at h; exact absurd h (by simp [Bind.bind, Except.bind])
  | ok toks =>
      rw [htok] at h
      simp only [Bind.bind, Except.bind] at h
      cases hseq : toks.mapM Token.to_sequence with
      | error e => rw [hseq] at h; exact absurd h (by simp)
      | ok seqs =>
          rw [hseq] at h
          simp only [Except.ok.injEq] at h
          subst h
          exact ⟨terminateReset_endsWith _, terminateReset_of_suffix (terminateReset_endsWith _)⟩

/-- Witness for C8 at the empty markup string. -/
theorem C8_terminated_witness :
    reset.isSuffixOf (cs "\x1b[0m") ∧ terminateReset (cs "\x1b[0m") = cs "\x1b[0m" :=
  C8_terminated (cs "") (cs "\x1b[0m") (by decide)

/-- C6: `_handle_color` resolves tag `"141"` to a foreground 8-bit payload,
`"@141"` to a background 8-bit payload and `"60;100;200"` to a foreground
24-bit payload; in general the `"5;"` selector is chosen exactly when the
(`@`-stripped) tag has fewer than two `;` separators and is not
hex-prefixed. -/
theorem C6_color_payloads :
    handle_color (cs "141") = some (cs "38;5;141", false) ∧
    handle_color (cs "@141") = some (cs "48;5;141", true) ∧
    handle_color (cs "60;100;200") = some (cs "38;2;60;100;200", false) ∧
    ∀ (tag payload : Str) (bg : Bool), handle_color tag = some (payload, bg) →
      ((payload.drop 3).take 2 = cs "5;" ↔
        ((if tag.head? = some '@' then tag.drop 1 else tag).count ';' < 2 ∧
          (if tag.head? = some '@' then tag.drop 1 else tag).head? ≠ some '#')) := by
  refine ⟨by decide, by decide, by decide, ?_⟩
  intro tag payload bg h
  unfold handle_color at h
  by_cases hall : tag.all colorChar
  · rw [if_neg (by simp [hall])] at h
    dsimp only at h
    simp only [Option.some.injEq, Prod.mk.injEq] at h
    obtain ⟨hpay, -⟩ := h
    by_cases hat : tag.head? = some '@'
    · rw [if_pos hat] at hpay ⊢
      by_cases hsel : (tag.drop 1).count ';' < 2 ∧ ¬(tag.drop 1).head? = some '#'
      · rw [if_pos hat, if_pos hsel] at hpay
        rw [← hpay, payload_selector _ (by decide) (by decide)]
        exact iff_of_true rfl hsel
      · rw [if_pos hat, if_neg hsel] at hpay
        rw [← hpay, payload_selector _ (by decide) (by decide)]
        exact iff_of_false (by decide) hsel
    · rw [if_neg hat] at hpay ⊢
      by_cases hsel : tag.count ';' < 2 ∧ ¬tag.head? = some '#'
      · rw [if_neg hat, if_pos hsel] at hpay
        rw [← hpay, payload_selector _ (by decide) (by decide)]
        exact iff_of_true rfl hsel
      · rw [if_neg hat, if_neg hsel] at hpay
        rw [← hpay, payload_selector _ (by decide) (by decide)]
        exact iff_of_false (by decide) hsel
  · rw [if_pos (by simp [hall])] at h
    exact absurd h (by simp)

/-- Witness for C6 at tag `"141"`. -/
theorem C6_color_payloads_witness :
    ((cs "38;5;141").drop 3).take 2 = cs "5;" ↔
      ((if (cs "141").head? = some '@' then (cs "141").drop 1 else cs "141").count ';' < 2 ∧
        (if (cs "141").head? = some '@' then (cs "141").drop 1 else cs "141").head? ≠ some '#') :=
  C6_color_payloads.2.2.2 (cs "141") (cs "38;5;141") false (by decide)

/-- C4 (counterexample): with a single backslash before `[bold]hi`, no
yielded plain token contains `"[bold]"`: the tokenizer emits plain `"old"`
(the bracket body with `len(escapes)` characters chopped off) and `"hi"`. -/
theorem C4_escape_counterexample :
    tokenize_markup (cs "\\[bold]hi") =
      .ok [{ start := 0, stop := 7, plain := some (cs "old") },
           { start := 0, stop := 7, plain := some (cs "hi") }] ∧
    ∀ t ∈ ([{ start := 0, stop := 7, plain := some (cs "old") },
            { start := 0, stop := 7, plain := some (cs "hi") }] : List Token),
      ∀ p, t.plain = some p → ¬ cs "[bold]" <:+: p := by
  decide

/-- C4 (amended): two backslashes before `[bold]hi` collapse to one literal
backslash plain token and leave the bracket group active as a bold tag
token; one backslash consumes the escape and emits the bracket body minus
`len(escapes)` characters (`"old"`), then `"hi"`. -/
theorem C4_escape_amended :
    tokenize_markup (cs "\\\\[bold]hi") =
      .ok [{ start := 0, stop := 8, plain := some (cs "\\") },
           { start := 2, stop := 8, code := some (cs "1"), attr := some .STYLE },
           { start := 2, stop := 8, plain := some (cs "hi") }] ∧
    tokenize_markup (cs "\\[bold]hi") =
      .ok [{ start := 0, stop := 7, plain := some (cs "old") },
           { start := 0, stop := 7, plain := some (cs "hi") }] := by
  decide

/-- Every `tokenize_ansi` emission step preserves the dedup chain: each
emitted match token differs in code from the previously emitted token, and
the head of the emitted stream is compatible with the carried `previous`. -/
theorem elabA_chain :
    ∀ (chunks : List AChunk) (prev : Option Token) (sp : Nat × Nat),
      List.Chain' dedupStep (elabA chunks prev sp) ∧
        (∀ p, prev = some p → ∀ y ∈ (elabA chunks prev sp).head?, dedupStep p y) := by
  intro chunks
  induction chunks with
  | nil =>
      intro prev sp
      refine ⟨by simp [elabA], ?_⟩
      intro p _ y hy
      simp [elabA] at hy
  | cons c rest ih =>
      intro prev sp
      rcases sp with ⟨s0, e0⟩
      cases c with
      | tail t =>
          by_cases ht : t.isEmpty
          · refine ⟨by simp [elabA, ht], ?_⟩
            intro p _ y hy
            simp [elabA, ht] at hy
          · refine ⟨by simp [elabA, ht], ?_⟩
            intro p _ y hy
            simp [elabA, ht] at hy
            subst hy
            exact Or.inl (by simp)
      | seq pre sgr s e =>
          by_cases hpre : pre.isEmpty
          · cases prev with
            | none =>
                have h := ih (some { start := s, stop := e, code := sgr }) (s, e)
                refine ⟨?_, by intro p hp; cases hp⟩
                have hout : elabA (AChunk.seq pre sgr s e :: rest) none (s0, e0) =
                    { start := s, stop := e, code := sgr } ::
                      elabA rest (some { start := s, stop := e, code := sgr }) (s, e) := by
                  simp [elabA, hpre]
                rw [hout, List.chain'_cons']
                exact ⟨h.2 _ rfl, h.1⟩
            | some p =>
                by_cases hc : p.code = sgr
                · have h := ih (some p) (s, e)
                  have hout : elabA (AChunk.seq pre sgr s e :: rest) (some p) (s0, e0) =
                      elabA rest (some p) (s, e) := by
                    simp [elabA, hpre, hc]
                  rw [hout]
                  exact ⟨h.1, by intro q hq; cases hq; exact h.2 _ rfl⟩
                · have h := ih (some { start := s, stop := e, code := sgr }) (s, e)
                  have hout : elabA (AChunk.seq pre sgr s e :: rest) (some p) (s0, e0) =
                      { start := s, stop := e, code := sgr } ::
                        elabA rest (some { start := s, stop := e, code := sgr }) (s, e) := by
                    simp [elabA, hpre, hc]
                  rw [hout]
                  constructor
                  · rw [List.chain'_cons']
                    exact ⟨h.2 _ rfl, h.1⟩
                  · intro q hq y hy
                    simp at hy
                    subst hy
                    cases hq
                    exact Or.inr hc
          · by_cases hc : (none : Option Str) = sgr
            · have h := ih (some { start := s, stop := e, plain := some pre }) (s, e)
              have hout : elabA (AChunk.seq pre sgr s e :: rest) prev (s0, e0) =
                  { start := s, stop := e, plain := some pre } ::
                    elabA rest (some { start := s, stop := e, plain := some pre }) (s, e) := by
                simp [elabA, hpre, ← hc]
              rw [hout]
              constructor
              · rw [List.chain'_cons']
                exact ⟨h.2 _ rfl, h.1⟩
              · intro q hq y hy
                simp at hy
                subst hy
                exact Or.inl (by simp)
            · have h := ih (some { start := s, stop := e, code := sgr }) (s, e)
              have hout : elabA (AChunk.seq pre sgr s e :: rest) prev (s0, e0) =
                  { start := s, stop := e, plain := some pre } ::
                    { start := s, stop := e, code := sgr } ::
                      elabA rest (some { start := s, stop := e, code := sgr }) (s, e) := by
                simp [elabA, hpre, hc]
              rw [hout]
              constructor
              · rw [List.chain'_cons]
                refine ⟨Or.inr (by simpa using hc), ?_⟩
                rw [List.chain'_cons']
                exact ⟨h.2 _ rfl, h.1⟩
              · intro q hq y hy
                simp at hy
                subst hy
                exact Or.inl (by simp)

/-- C5 (counterexample): tokenizing `"\x1b[1m\x1b[1mhello"` does not yield
exactly one code token followed by one plain token: the stream has three
tokens, two of them code tokens (the second is the `"0"` of the implicitly
appended reset). -/
theorem C5_counterexample :
    (tokenize_ansi (cs "\x1b[1m\x1b[1mhello")).length = 3 ∧
    ((tokenize_ansi (cs "\x1b[1m\x1b[1mhello")).filter (fun t => t.code.isSome)).length = 2 := by
  decide

/-- C5 (amended): tokenizing `"\x1b[1m\x1b[1mhello"` yields code `"1"`,
plain `"hello"`, then code `"0"` from the implicitly appended reset — the
two adjacent identical SGR sequences collapse to one token — and in every
`tokenize_ansi` stream a token directly following another is plain or
differs from it in code. -/
theorem C5_dedup :
    tokenize_ansi (cs "\x1b[1m\x1b[1mhello") =
      [{ start := 0, stop := 4, code := some (cs "1") },
       { start := 13, stop := 17, plain := some (cs "hello") },
       { start := 13, stop := 17, code := some (cs "0") }] ∧
    ∀ text : Str, List.Chain' dedupStep (tokenize_ansi text) := by
  refine ⟨by decide, ?_⟩
  intro text
  exact (elabA_chain _ none (0, 0)).1

/-- Every successful `amGo` result ends with the final bracket flush. -/
theorem amGo_ends_bracket :
    ∀ (toks : List Token) (m : Str) (ia : Bool) (br : List Str) (r : Str),
      amGo toks m ia br = .ok r → ∃ s : Str, r = s ++ [']'] := by
  intro toks
  induction toks with
  | nil =>
      intro m ia br r h
      simp only [amGo, Except.ok.injEq] at h
      exact ⟨m ++ '[' :: joinSpace br, by simp [← h]⟩
  | cons t ts ih =>
      intro m ia br r h
      rw [amGo] at h
      cases hcode : t.code with
      | some c =>
          rw [hcode] at h
          simp only [Bind.bind, Except.bind] at h
          cases hn : t.to_name with
          | error e => rw [hn] at h; exact absurd h (by simp)
          | ok n => rw [hn] at h; exact ih _ _ _ _ h
      | none =>
          rw [hcode] at h
          simp only [Bind.bind, Except.bind] at h
          cases hn : t.to_name with
          | error e => rw [hn] at h; exact absurd h (by simp)
          | ok n => rw [hn] at h; exact ih _ _ _ _ h

/-- C9 (counterexample): on input ending exactly on a reset, the trailing
bracket group is `"[/]"`, not the empty `"[]"`. -/
theorem C9_counterexample :
    ansi_to_markup (cs "\x1b[0m") = .ok (cs "[/]") ∧
      (cs "[]").isSuffixOf (cs "[/]") = false := by
  decide

/-- C9 (amended): every successful `ansi_to_markup` result ends with a
flushed bracket group (its last character is `]`); when the stream ends
exactly on a reset the flushed group holds the clear-all tag, as in
`ansi_to_markup "\x1b[0m" = "[/]"`. -/
theorem C9_trailing_bracket :
    (∀ a r : Str, ansi_to_markup a = .ok r → r.getLast? = some ']') ∧
      ansi_to_markup (cs "\x1b[0m") = .ok (cs "[/]") := by
  refine ⟨?_, by decide⟩
  intro a r h
  obtain ⟨s, rfl⟩ := amGo_ends_bracket _ _ _ _ _ h
  exact List.getLast?_concat s

/-- Witness for C9 at the empty ANSI string. -/
theorem C9_trailing_bracket_witness : (cs "[/]").getLast? = some ']' :=
  C9_trailing_bracket.1 (cs "") (cs "[/]") (by decide)

/-- The `RE_TAGS` scanner chunks of any string partition it: concatenating
each chunk's source text reconstructs the input. -/
theorem mchunks_text_flatten_aux :
    ∀ (n : Nat) (s : Str) (off : Nat), s.length ≤ n →
      ((mchunks s off).map MChunk.text).flatten = s := by
  intro n
  induction n with
  | zero =>
      intro s off hle
      have hs : s = [] := List.length_eq_zero.mp (Nat.le_zero.mp hle)
      subst hs
      rw [mchunks_eq]
      simp [findTag, MChunk.text]
  | succ n ih =>
      intro s off hle
      rw [mchunks_eq]
      rcases hf : findTag s with _ | ⟨skip, k, len, body, rem⟩
      · simp [MChunk.text]
      · obtain ⟨pre, hs, hskip, -, -⟩ := findTag_spec hf
        have hrem : rem.length ≤ n := by
          have := findTag_rem_lt hf
          omega
        have htake : s.take skip = pre := by
          rw [hs, ← hskip, List.append_assoc, List.append_assoc]
          exact List.take_left pre _
        simp only [List.map_cons, List.flatten_cons, MChunk.text, htake,
          ih rem (off + skip + len) hrem]
        rw [hs]
        simp

/-- C3 (counterexample): the token spans of `tokenize_markup "ab[bold]"`
do not partition the source: the plain token `"ab"` carries the span
`(2, 8)` of the following match, so position 0 lies in no token's span. -/
theorem C3_span_counterexample :
    tokenize_markup (cs "ab[bold]") =
      .ok [{ start := 2, stop := 8, plain := some (cs "ab") },
           { start := 2, stop := 8, code := some (cs "1"), attr := some .STYLE }] ∧
    ∀ t ∈ ([{ start := 2, stop := 8, plain := some (cs "ab") },
            { start := 2, stop := 8, code := some (cs "1"), attr := some .STYLE }] :
            List Token),
      ¬ (t.start ≤ 0 ∧ 0 < t.stop) := by
  decide

/-- C3 (amended): what partitions the source string is the scanner's match
structure, not the emitted spans: the matched tag groups together with the
skipped plain segments and the trailing text concatenate back to the exact
input, for every input string. -/
theorem C3_partition (s : Str) (off : Nat) :
    ((mchunks s off).map MChunk.text).flatten = s :=
  mchunks_text_flatten_aux s.length s off le_rfl

/-- Tokens produced by an `Except`-valued `mapM` all satisfy a shape
predicate their producer guarantees. -/
theorem mapM_token_shape (f : Str → Except PyErr Token) (P : Token → Prop)
    (hf : ∀ x t, f x = .ok t → P t) :
    ∀ (l : List Str) (ts : List Token), l.mapM f = .ok ts → ∀ t ∈ ts, P t := by
  intro l
  induction l with
  | nil =>
      intro ts h
      rw [List.mapM_nil] at h
      simp only [pure, Except.pure, Except.ok.injEq] at h
      subst h
      intro t ht
      cases ht
  | cons x xs ih =>
      intro ts h
      rw [List.mapM_cons] at h
      simp only [Bind.bind, Except.bind] at h
      cases hr : f x with
      | error e' => rw [hr] at h; exact absurd h (by simp)
      | ok tok =>
          rw [hr] at h
          cases hm : xs.mapM f with
          | error e' =>
              rw [hm] at h
              exact absurd h (by simp [pure, Except.pure])
          | ok ts' =>
              rw [hm] at h
              simp only [pure, Except.pure, Except.ok.injEq] at h
              subst h
              intro t ht
              rcases List.mem_cons.mp ht with rfl | hmem
              · exact hf x t hr
              · exact ih ts' hm t hmem

/-- Membership in a one-element conditional list. -/
theorem mem_if_nil_single {P : Prop} [Decidable P] {x t : Token}
    (ht : t ∈ (if P then ([] : List Token) else [x])) : t = x := by
  split at ht
  · cases ht
  · simpa using ht

/-- Membership in a one-element conditional list, the other orientation. -/
theorem mem_if_single_nil {P : Prop} [Decidable P] {x t : Token}
    (ht : t ∈ (if P then [x] else ([] : List Token))) : t = x := by
  split at ht
  · simpa using ht
  · cases ht

/-- Every token `tokenize_markup` yields is plain-only or code-only. -/
theorem elabM_token_shape :
    ∀ (chunks : List MChunk) (span : Option (Nat × Nat)) (ts : List Token),
      elabM chunks span = .ok ts →
      ∀ t ∈ ts, (t.plain.isSome ∧ t.code = none) ∨ (t.plain = none ∧ t.code.isSome) := by
  intro chunks
  induction chunks with
  | nil =>
      intro span ts h t ht
      simp only [elabM, Except.ok.injEq] at h
      subst h
      cases ht
  | cons c rest ih =>
      intro span ts h t ht
      cases c with
      | tail r =>
          simp only [elabM] at h
          by_cases hr : r.isEmpty
          · rw [if_pos hr] at h
            simp only [Except.ok.injEq] at h
            subst h
            cases ht
          · rw [if_neg hr] at h
            cases span with
            | none => exact absurd h (by simp)
            | some se =>
                rcases se with ⟨s, e⟩
                simp only [Except.ok.injEq] at h
                subst h
                have := List.mem_singleton.mp ht
                subst this
                exact Or.inl (by simp)
      | grp pre k body s e =>
          simp only [elabM] at h
          have hf : ∀ (x : Str) (tk : Token),
              resolveTagToken (s + k / 2 * 2) e x = .ok tk →
              tk.plain = none ∧ tk.code.isSome := by
            intro x tk hfx
            unfold resolveTagToken at hfx
            simp only [Bind.bind, Except.bind] at hfx
            cases hrx : resolveTag x with
            | error e' => rw [hrx] at hfx; exact absurd hfx (by simp)
            | ok pr =>
                rw [hrx] at hfx
                rcases pr with ⟨cc, aa⟩
                simp only [pure, Except.pure, Except.ok.injEq] at hfx
                subst hfx
                exact ⟨rfl, rfl⟩
          by_cases hk : k % 2 = 1
          · rw [if_pos hk] at h
            simp only [Bind.bind, Except.bind] at h
            cases hrec : elabM rest (some (s + k / 2 * 2, e)) with
            | error e' => rw [hrec] at h; exact absurd h (by simp)
            | ok rts =>
                rw [hrec] at h
                simp only [Except.ok.injEq] at h
                subst h
                simp only [List.append_assoc, List.mem_append] at ht
                rcases ht with h1 | h1 | h1 | h1
                · have := mem_if_nil_single h1
                  subst this
                  exact Or.inl (by simp)
                · have := mem_if_single_nil h1
                  subst this
                  exact Or.inl (by simp)
                · have := List.mem_singleton.mp h1
                  subst this
                  exact Or.inl (by simp)
                · exact ih _ _ hrec t h1
          · rw [if_neg hk] at h
            simp only [Bind.bind, Except.bind] at h
            cases htt : (pySplit body).mapM (resolveTagToken (s + k / 2 * 2) e) with
            | error e' => rw [htt] at h; exact absurd h (by simp)
            | ok tagToks =>
                rw [htt] at h
                cases hrec : elabM rest (some (s + k / 2 * 2, e)) with
                | error e' => rw [hrec] at h; exact absurd h (by simp)
                | ok rts =>
                    rw [hrec] at h
                    simp only [Except.ok.injEq] at h
                    subst h
                    simp only [List.append_assoc, List.mem_append] at ht
                    rcases ht with h1 | h1 | h1 | h1
                    · have := mem_if_nil_single h1
                      subst this
                      exact Or.inl (by simp)
                    · have := mem_if_single_nil h1
                      subst this
                      exact Or.inl (by simp)
                    · obtain ⟨hp, hc⟩ := mapM_token_shape _ _ hf _ _ htt t h1
                      exact Or.inr ⟨hp, hc⟩
                    · exact ih _ _ hrec t h1

/-- No token `tokenize_ansi` yields has both `plain` and `code` present. -/
theorem elabA_not_both :
    ∀ (chunks : List AChunk) (prev : Option Token) (sp : Nat × Nat),
      ∀ t ∈ elabA chunks prev sp, ¬ (t.plain.isSome ∧ t.code.isSome) := by
  intro chunks
  induction chunks with
  | nil =>
      intro prev sp t ht
      simp [elabA] at ht
  | cons c rest ih =>
      intro prev sp t ht
      rcases sp with ⟨s0, e0⟩
      cases c with
      | tail r =>
          by_cases hr : r.isEmpty
          · simp [elabA, hr] at ht
          · simp [elabA, hr] at ht
            subst ht
            simp
      | seq pre sgr s e =>
          by_cases hpre : pre.isEmpty
          · cases prev with
            | none =>
                rw [show elabA (AChunk.seq pre sgr s e :: rest) none (s0, e0) =
                    { start := s, stop := e, code := sgr } ::
                      elabA rest (some { start := s, stop := e, code := sgr }) (s, e) by
                  simp [elabA, hpre]] at ht
                rcases List.mem_cons.mp ht with rfl | hmem
                · simp
                · exact ih _ _ t hmem
            | some p =>
                by_cases hc : p.code = sgr
                · rw [show elabA (AChunk.seq pre sgr s e :: rest) (some p) (s0, e0) =
                      elabA rest (some p) (s, e) by simp [elabA, hpre, hc]] at ht
                  exact ih _ _ t ht
                · rw [show elabA (AChunk.seq pre sgr s e :: rest) (some p) (s0, e0) =
                      { start := s, stop := e, code := sgr } ::
                        elabA rest (some { start := s, stop := e, code := sgr }) (s, e) by
                    simp [elabA, hpre, hc]] at ht
                  rcases List.mem_cons.mp ht with rfl | hmem
                  · simp
                  · exact ih _ _ t hmem
          · by_cases hc : (none : Option Str) = sgr
            · rw [show elabA (AChunk.seq pre sgr s e :: rest) prev (s0, e0) =
                  { start := s, stop := e, plain := some pre } ::
                    elabA rest (some { start := s, stop := e, plain := some pre }) (s, e) by
                simp [elabA, hpre, ← hc]] at ht
              rcases List.mem_cons.mp ht with rfl | hmem
              · simp
              · exact ih _ _ t hmem
            · rw [show elabA (AChunk.seq pre sgr s e :: rest) prev (s0, e0) =
                  { start := s, stop := e, plain := some pre } ::
                    { start := s, stop := e, code := sgr } ::
                      elabA rest (some { start := s, stop := e, code := sgr }) (s, e) by
                simp [elabA, hpre, hc]] at ht
              rcases List.mem_cons.mp ht with rfl | hmem
              · simp
              · rcases List.mem_cons.mp hmem with rfl | hmem2
                · simp
                · exact ih _ _ t hmem2

/-- C2 (counterexample): `tokenize_ansi` on an OSC-style sequence yields a
token whose `plain` and `code` are both absent. -/
theorem C2_counterexample :
    tokenize_ansi (cs "\x1b]x\x1b\\") =
      [{ start := 0, stop := 5 }, { start := 5, stop := 9, code := some (cs "0") }] ∧
    ({ start := 0, stop := 5 } : Token).plain = none ∧
    ({ start := 0, stop := 5 } : Token).code = none := by
  decide

/-- C2 (amended): every token `tokenize_markup` yields has exactly one of
`plain`, `code` present; every token `tokenize_ansi` yields has at most one
present, and tokens from OSC-style matches have both absent. -/
theorem C2_exactly_one :
    (∀ (text : Str) (ts : List Token), tokenize_markup text = .ok ts →
        ∀ t ∈ ts, (t.plain.isSome ∧ t.code = none) ∨ (t.plain = none ∧ t.code.isSome)) ∧
    (∀ text : Str, ∀ t ∈ tokenize_ansi text, ¬ (t.plain.isSome ∧ t.code.isSome)) := by
  constructor
  · intro text ts h
    exact elabM_token_shape _ _ _ h
  · intro text t ht
    exact elabA_not_both _ _ _ t ht

/-- Witness for C2 on the tokens of `"[bold]hi"`. -/
theorem C2_exactly_one_witness :
    (({ start := 0, stop := 6, code := some (cs "1"), attr := some .STYLE } : Token).plain.isSome ∧
        ({ start := 0, stop := 6, code := some (cs "1"), attr := some .STYLE } : Token).code = none) ∨
      (({ start := 0, stop := 6, code := some (cs "1"), attr := some .STYLE } : Token).plain = none ∧
        ({ start := 0, stop := 6, code := some (cs "1"), attr := some .STYLE } : Token).code.isSome) :=
  C2_exactly_one.1 (cs "[bold]hi")
    [{ start := 0, stop := 6, code := some (cs "1"), attr := some .STYLE },
     { start := 0, stop := 6, plain := some (cs "hi") }]
    (by decide) _ (by decide)

/-- `_handle_named_color` can only fail with a `KeyError`. -/
theorem handle_named_color_error {tag : Str} {e : PyErr}
    (h : handle_named_color tag = .error e) : e = .keyError := by
  unfold handle_named_color at h
  by_cases h1 : (foregroundNames.lookup (tag.dropWhile (· = '@'))).isNone
  · rw [if_pos h1] at h
    cases h
  · rw [if_neg h1] at h
    dsimp only at h
    rcases hl : foregroundNames.lookup
        (if tag.head? = some '@' then (cs "@", tag.drop 1) else ([], tag)).2 with _ | v
    · rw [hl] at h
      cases h
      rfl
    · rw [hl] at h
      cases h

/-- C7 (counterexample): `ansi_to_markup "\x1b[30mhi"` raises an
`IndexError` (`NAMES[30]` is out of range), although the code `"30"` is
neither an unrecognized markup tag nor a composite code with fewer than
three fields — so inputs outside the claim's two conditions can raise. -/
theorem C7_counterexample :
    ansi_to_markup (cs "\x1b[30mhi") = .error .indexError := by
  decide

/-- C7 (amended): a tag raises the unrecognized-tag `SyntaxError` exactly
when it matches none of `NAMES`, `UNSET_MAP`, the named colors or the
numeric colors — concretely `tokenize_markup "[notacolor notatag]"` fails
naming `"notacolor"` — and a code token whose non-digit code has fewer than
three `;`-fields raises the invalid-code `SyntaxError`; but other error
kinds exist (`IndexError`, `ValueError`, `KeyError`, `UnboundLocalError`),
so these are not the only raising inputs. -/
theorem C7_errors :
    tokenize_markup (cs "[notacolor notatag]") = .error (.syntaxError (cs "notacolor")) ∧
    (∀ tag : Str, resolveTag tag = .error (.syntaxError tag) ↔
        (tag ∉ NAMES ∧ UNSET_MAP.lookup tag = none ∧
          handle_named_color tag = .ok none ∧ handle_color tag = none)) ∧
    (∀ (t : Token) (c : Str), t.plain = none → t.code = some c → pyIsDigit c = false →
        (c.splitOn ';').length < 3 → t.to_name = .error (.syntaxError c)) := by
  refine ⟨by decide, ?_, ?_⟩
  · intro tag
    have hmem : NAMES.findIdx? (· = tag) = none ↔ tag ∉ NAMES := by
      rw [List.findIdx?_eq_none_iff]
      constructor
      · intro hall hmemt
        have := hall tag hmemt
        simp at this
      · intro hnot x hx
        simp only [decide_eq_false_iff_not]
        intro hxeq
        exact hnot (hxeq ▸ hx)
    constructor
    · intro h
      have h1 : NAMES.findIdx? (· = tag) = none := by
        rcases hidx : NAMES.findIdx? (· = tag) with _ | i
        · rfl
        · exfalso
          unfold resolveTag at h
          rw [hidx] at h
          exact absurd h (by simp)
      have h2 : UNSET_MAP.lookup tag = none := by
        rcases hlook : UNSET_MAP.lookup tag with _ | v
        · rfl
        · exfalso
          unfold resolveTag at h
          rw [h1, hlook] at h
          exact absurd h (by simp)
      have h3 : handle_named_color tag = .ok none := by
        rcases hn : handle_named_color tag with e | opt
        · exfalso
          have he := handle_named_color_error hn
          subst he
          unfold resolveTag at h
          rw [h1, h2] at h
          simp only [Bind.bind, Except.bind] at h
          rw [hn] at h
          simp at h
        · cases opt with
          | none => rfl
          | some pr =>
              exfalso
              rcases pr with ⟨cc, bb⟩
              unfold resolveTag at h
              rw [h1, h2] at h
              simp only [Bind.bind, Except.bind] at h
              rw [hn] at h
              simp at h
      have h4 : handle_color tag = none := by
        rcases hc : handle_color tag with _ | pr
        · rfl
        · exfalso
          rcases pr with ⟨cc, bb⟩
          unfold resolveTag at h
          rw [h1, h2] at h
          simp only [Bind.bind, Except.bind] at h
          rw [h3] at h
          dsimp only at h
          rw [hc] at h
          simp at h
      exact ⟨hmem.mp h1, h2, h3, h4⟩
    · rintro ⟨h1, h2, h3, h4⟩
      unfold resolveTag
      rw [show NAMES.findIdx? (· = tag) = none from hmem.mpr h1]
      rw [h2]
      simp only [Bind.bind, Except.bind]
      rw [h3]
      dsimp only
      rw [h4]
  · intro t c hplain hcode hdigit hlen
    rw [Token.to_name.eq_def, hplain, hcode]
    dsimp only
    rw [hdigit]
    simp only [Bool.false_eq_true, if_false]
    rw [if_pos hlen]

/-- Witness for C7 at the two-field composite code `"38;5"`. -/
theorem C7_errors_witness :
    ({ start := 0, stop := 0, code := some (cs "38;5") } : Token).to_name =
      .error (.syntaxError (cs "38;5")) :=
  C7_errors.2.2 { start := 0, stop := 0, code := some (cs "38;5") } (cs "38;5")
    rfl rfl (by decide) (by decide)

/-! ### Round-trip lemmas: markup side -/

theorem findClose_build :
    ∀ (b : Str) (r : Str), (∀ c ∈ b, ¬(c = ']' ∨ c = '\n')) →
      findClose (b ++ ']' :: r) = some (b, r) := by
  intro b
  induction b with
  | nil => intro r _; simp [findClose]
  | cons c b' ih =>
      intro r hc
      have hc1 := hc c (by simp)
      rw [List.cons_append, findClose]
      rw [if_neg (fun h => hc1 (Or.inl h)), if_neg (fun h => hc1 (Or.inr h))]
      rw [ih r (fun x hx => hc x (by simp [hx]))]
      rfl

theorem tryTag_none_head {c : Char} (rest : Str) (hb : c ≠ '\\') (ho : c ≠ '[') :
    tryTag (c :: rest) = none := by
  unfold tryTag
  have hsp : splitBackslashes (c :: rest) = (0, c :: rest) := by
    rw [splitBackslashes, if_neg hb]
  rw [hsp]
  dsimp only
  cases rest with
  | nil => rfl
  | cons c0 s2 =>
      dsimp only
      rw [if_neg]
      rintro ⟨h1, -⟩
      exact ho h1

theorem validPlain_mem {p : Str} (hp : validPlain p = true) {c : Char} (hc : c ∈ p) :
    ¬(c = esc ∨ c = '[' ∨ c = '\\') := by
  have := List.all_eq_true.mp hp c hc
  intro hor
  rcases hor with h | h | h <;> simp [h] at this

theorem tagSafe_mem {t : Str} (ht : tagSafe t = true) {c : Char} (hc : c ∈ t) :
    ¬(c = ']' ∨ c = '\n' ∨ isPySpace c = true) := by
  have h2 := (Bool.and_eq_true _ _ |>.mp ht).2
  have h3 := List.all_eq_true.mp h2 c hc
  simp only [Bool.not_eq_true', Bool.or_eq_false_iff, decide_eq_false_iff_not] at h3
  rintro (h | h | h)
  · exact h3.1.1 h
  · exact h3.1.2 h
  · rw [h3.2] at h
    cases h

theorem tryTag_build {t : Str} (rest : Str) (ht : tagSafe t = true) :
    tryTag ('[' :: (t ++ ']' :: rest)) = some (0, t.length + 2, t, rest) := by
  rcases t with _ | ⟨c0, t'⟩
  · simp [tagSafe, tagHeadOk] at ht
  · have hhead : tagClass c0 = true := (Bool.and_eq_true _ _ |>.mp ht).1
    unfold tryTag
    have hsp : splitBackslashes ('[' :: (c0 :: t' ++ ']' :: rest)) =
        (0, '[' :: (c0 :: t' ++ ']' :: rest)) := by
      rw [splitBackslashes, if_neg (by decide)]
    rw [hsp]
    simp only [List.cons_append]
    rw [if_pos ⟨trivial, hhead⟩]
    have hfc : findClose (t' ++ ']' :: rest) = some (t', rest) := by
      apply findClose_build
      intro x hx
      have hmem := tagSafe_mem ht (c := x) (by simp [hx])
      intro hor
      rcases hor with h | h
      · exact hmem (Or.inl h)
      · exact hmem (Or.inr (Or.inl h))
    rw [hfc, Option.map_some']
    have hlen : 0 + 3 + t'.length = (c0 :: t').length + 2 := by simp; omega
    rw [hlen]

theorem findTag_none_plain {p : Str} (hp : validPlain p = true) : findTag p = none := by
  induction p with
  | nil => rfl
  | cons c p' ih =>
      have hc := validPlain_mem hp (c := c) (by simp)
      rw [findTag, tryTag_none_head p' (fun h => hc (Or.inr (Or.inr h)))
        (fun h => hc (Or.inr (Or.inl h)))]
      rw [ih (by
        simp only [validPlain, List.all_cons, Bool.and_eq_true] at hp
        exact hp.2)]
      rfl

theorem findTag_build {p t : Str} (rest : Str) (hp : validPlain p = true)
    (ht : tagSafe t = true) :
    findTag (p ++ '[' :: (t ++ ']' :: rest)) = some (p.length, 0, t.length + 2, t, rest) := by
  induction p with
  | nil =>
      rw [List.nil_append, findTag, tryTag_build rest ht]
      rfl
  | cons c p' ih =>
      have hc := validPlain_mem hp (c := c) (by simp)
      rw [List.cons_append, findTag]
      rw [tryTag_none_head _ (fun h => hc (Or.inr (Or.inr h)))
        (fun h => hc (Or.inr (Or.inl h)))]
      rw [ih (by
        simp only [validPlain, List.all_cons, Bool.and_eq_true] at hp
        exact hp.2)]
      rfl

theorem mchunks_build :
    ∀ (segs : List (Str × Str)) (p : Str) (off : Nat), validPlain p = true →
      (∀ tp ∈ segs, tagSafe tp.1 = true ∧ validPlain tp.2 = true) →
      mchunks (p ++ (segs.map fun tp => '[' :: tp.1 ++ ']' :: tp.2).flatten) off =
        buildChunks segs p off := by
  intro segs
  induction segs with
  | nil =>
      intro p off hp _
      rw [mchunks_eq]
      simp only [List.map_nil, List.flatten_nil, List.append_nil]
      rw [findTag_none_plain hp]
      rfl
  | cons seg rest ih =>
      intro p off hp hsegs
      rcases seg with ⟨t, pl⟩
      have ht : tagSafe t = true := (hsegs (t, pl) (by simp)).1
      have hpl : validPlain pl = true := (hsegs (t, pl) (by simp)).2
      have hshape :
          p ++ (((t, pl) :: rest).map fun tp => '[' :: tp.1 ++ ']' :: tp.2).flatten =
          p ++ '[' :: (t ++ ']' :: (pl ++ (rest.map fun tp => '[' :: tp.1 ++ ']' :: tp.2).flatten)) := by
        simp
      rw [hshape, mchunks_eq, findTag_build _ hp ht]
      dsimp only
      rw [List.take_left' rfl]
      rw [ih pl (off + p.length + (t.length + 2)) hpl
        (fun tp htp => hsegs tp (by simp [htp]))]
      have harith : off + p.length + (t.length + 2) = off + p.length + t.length + 2 := by omega
      rw [harith]
      rfl

theorem pySplitAux_nospace :
    ∀ (t w : Str), (∀ c ∈ t, isPySpace c = false) →
      pySplitAux t w = if (w.reverse ++ t).isEmpty then [] else [w.reverse ++ t] := by
  intro t
  induction t with
  | nil =>
      intro w _
      rw [pySplitAux]
      by_cases hw : w.isEmpty
      · have hwn : w = [] := by simpa using hw
        subst hwn
        simp
      · rw [if_neg hw]
        have hwn : w ≠ [] := by simpa using hw
        rw [if_neg (by simpa using hwn)]
        simp
  | cons c t' ih =>
      intro w hc
      rw [pySplitAux, if_neg (by simp [hc c (by simp)])]
      rw [ih (c :: w) (fun x hx => hc x (by simp [hx]))]
      simp

theorem pySplit_single {t : Str} (hne : t ≠ []) (hns : ∀ c ∈ t, isPySpace c = false) :
    pySplit t = [t] := by
  rw [pySplit, pySplitAux_nospace t [] hns]
  simp [hne]

theorem tagSafe_ne_nil {t : Str} (ht : tagSafe t = true) : t ≠ [] := by
  intro h
  subst h
  simp [tagSafe, tagHeadOk] at ht

theorem tagSafe_nospace {t : Str} (ht : tagSafe t = true) :
    ∀ c ∈ t, isPySpace c = false := by
  intro c hc
  have := tagSafe_mem ht hc
  cases hps : isPySpace c
  · rfl
  · exact absurd (Or.inr (Or.inr hps)) this

theorem goodTag_spec {t : Str} (h : goodTag t = true) :
    tagSafe t = true ∧ (∃ a, resolveTag t = .ok (codeOf t, a)) ∧ codeSafe (codeOf t) = true ∧
    Token.to_name { start := 0, stop := 0, code := some (codeOf t) } = .ok (nameOf t) ∧
    tagSafe (nameOf t) = true ∧ ∃ a, resolveTag (nameOf t) = .ok (codeOf t, a) := by
  unfold goodTag at h
  obtain ⟨h1, h2⟩ := Bool.and_eq_true _ _ |>.mp h
  rcases hres : resolveTag t with e | pr
  · rw [hres] at h2; cases h2
  rcases pr with ⟨c, a⟩
  rw [hres] at h2
  dsimp only at h2
  have hcode : codeOf t = c := by unfold codeOf; rw [hres]
  obtain ⟨h3, h4⟩ := Bool.and_eq_true _ _ |>.mp h2
  rcases hnm : Token.to_name { start := 0, stop := 0, code := some c } with e | n
  · rw [hnm] at h4; cases h4
  rw [hnm] at h4
  dsimp only at h4
  have hname : nameOf t = n := by unfold nameOf; rw [hcode, hnm]
  obtain ⟨h5, h6⟩ := Bool.and_eq_true _ _ |>.mp h4
  rcases hres2 : resolveTag n with e | pr2
  · rw [hres2] at h6; cases h6
  rcases pr2 with ⟨c', a'⟩
  rw [hres2] at h6
  dsimp only at h6
  have hcc : c' = c := by simpa using h6
  subst hcc
  rw [hcode, hname]
  exact ⟨h1, ⟨a, rfl⟩, h3, hnm, h5, ⟨a', hres2⟩⟩

theorem elabM_buildChunks :
    ∀ (segs : List (Str × Str)) (p : Str) (off : Nat) (span : Option (Nat × Nat)),
      (∀ tp ∈ segs, goodTag tp.1 = true) →
      (p ≠ [] → segs = [] → span.isSome) →
      ∃ ts : List Token, elabM (buildChunks segs p off) span = .ok ts ∧
        ts.map tokData = tokDataOf segs p := by
  intro segs
  induction segs with
  | nil =>
      intro p off span _ hspan
      rw [buildChunks]
      by_cases hp : p.isEmpty
      · exact ⟨[], by simp [elabM, hp], by simp [tokDataOf, hp]⟩
      · have hpne : p ≠ [] := by simpa using hp
        rcases span with _ | ⟨s, e⟩
        · exact absurd (hspan hpne rfl) (by simp)
        · refine ⟨[{ start := s, stop := e, plain := some p }], ?_, ?_⟩
          · simp [elabM, hp]
          · simp [tokDataOf, hp, tokData]
  | cons seg rest ih =>
      intro p off span hgood hspan
      rcases seg with ⟨t, pl⟩
      have hg := hgood (t, pl) (by simp)
      obtain ⟨hsafe, ⟨a, hres⟩, -, -, -, -⟩ := goodTag_spec hg
      rw [buildChunks]
      obtain ⟨ts', hrec, hmap⟩ :=
        ih pl (off + p.length + t.length + 2)
          (some (off + p.length + 0 / 2 * 2, off + p.length + t.length + 2))
          (fun tp htp => hgood tp (by simp [htp])) (fun _ _ => rfl)
      have hmapM : (pySplit t).mapM
          (resolveTagToken (off + p.length + 0 / 2 * 2) (off + p.length + t.length + 2)) =
          .ok [{ start := off + p.length + 0 / 2 * 2, stop := off + p.length + t.length + 2,
                 code := some (codeOf t), attr := some a }] := by
        rw [pySplit_single (tagSafe_ne_nil hsafe) (tagSafe_nospace hsafe),
          List.mapM_cons, List.mapM_nil]
        simp [resolveTagToken, hres, Bind.bind, Except.bind, pure, Except.pure]
      refine ⟨(if p.isEmpty then [] else
          [{ start := off + p.length, stop := off + p.length + t.length + 2,
             plain := some p }]) ++
          [{ start := off + p.length + 0 / 2 * 2, stop := off + p.length + t.length + 2,
             code := some (codeOf t), attr := some a }] ++ ts', ?_, ?_⟩
      · simp only [elabM]
        rw [if_neg (show ¬((0 : Nat) % 2 = 1) by decide)]
        simp only [Bind.bind, Except.bind]
        rw [hmapM, hrec]
        dsimp only
        rw [if_neg (show ¬((0 : Nat) / 2 > 0) by decide)]
        simp
      · rw [tokDataOf]
        simp only [List.map_append, hmap]
        split
        · simp [tokData]
        · simp [tokData]

theorem tokDataOf_mem :
    ∀ (segs : List (Str × Str)) (p : Str) (d : Option Str × Option Str),
      d ∈ tokDataOf segs p →
      (∃ q, d = (some q, none)) ∨ (∃ c, d = (none, some c)) := by
  intro segs
  induction segs with
  | nil =>
      intro p d hd
      rw [tokDataOf] at hd
      split at hd
      · cases hd
      · exact Or.inl ⟨p, List.mem_singleton.mp hd⟩
  | cons seg rest ih =>
      intro p d hd
      rcases seg with ⟨t, pl⟩
      rw [tokDataOf] at hd
      rcases List.mem_append.mp hd with h1 | h1
      · split at h1
        · cases h1
        · exact Or.inl ⟨p, List.mem_singleton.mp h1⟩
      · rcases List.mem_cons.mp h1 with rfl | h2
        · exact Or.inr ⟨codeOf t, rfl⟩
        · exact ih pl d h2

theorem mapM_to_sequence :
    ∀ ts : List Token, (∀ t ∈ ts, ¬(t.plain = none ∧ t.code = none)) →
      ts.mapM Token.to_sequence = .ok (ts.map fun t => dataSeq (tokData t)) := by
  intro ts
  induction ts with
  | nil =>
      intro _
      rw [List.mapM_nil]
      rfl
  | cons t rest ih =>
      intro hts
      rw [List.mapM_cons]
      have hseq : t.to_sequence = .ok (dataSeq (tokData t)) := by
        have hne := hts t (by simp)
        unfold Token.to_sequence dataSeq tokData
        rcases hc : t.code with _ | c
        · rcases hp : t.plain with _ | p
          · exact absurd ⟨hp, hc⟩ hne
          · simp
        · simp
      rw [hseq]
      simp only [Bind.bind, Except.bind]
      rw [ih (fun x hx => hts x (by simp [hx]))]
      rfl

theorem dataSeq_flatten :
    ∀ (segs : List (Str × Str)) (p : Str),
      ((tokDataOf segs p).map dataSeq).flatten = ansiOf segs p := by
  intro segs
  induction segs with
  | nil =>
      intro p
      rw [tokDataOf, ansiOf]
      by_cases hp : p.isEmpty
      · have : p = [] := by simpa using hp
        subst this
        simp
      · rw [if_neg hp]
        simp [dataSeq]
  | cons seg rest ih =>
      intro p
      rcases seg with ⟨t, pl⟩
      rw [tokDataOf, ansiOf]
      by_cases hp : p.isEmpty
      · have : p = [] := by simpa using hp
        subst this
        simp [dataSeq, ih]
      · rw [if_neg hp]
        simp [dataSeq, ih]

theorem markup_to_ansi_build (p0 : Str) (segs : List (Str × Str))
    (hp0 : validPlain p0 = true) (hsegs : ∀ tp ∈ segs, goodSeg tp = true)
    (hne : segs ≠ []) :
    ∃ ts : List Token, tokenize_markup (buildMarkup p0 segs) = .ok ts ∧
      ts.map tokData = tokDataOf segs p0 ∧
      markup_to_ansi (buildMarkup p0 segs) = .ok (terminateReset (ansiOf segs p0)) := by
  have hparts : ∀ tp ∈ segs, goodTag tp.1 = true ∧ validPlain tp.2 = true := by
    intro tp htp
    have := hsegs tp htp
    unfold goodSeg at this
    obtain ⟨h1, h2⟩ := Bool.and_eq_true _ _ |>.mp this
    obtain ⟨h1a, h1b⟩ := Bool.and_eq_true _ _ |>.mp h1
    exact ⟨h1a, h1b⟩
  have hchunks : mchunks (buildMarkup p0 segs) 0 = buildChunks segs p0 0 := by
    unfold buildMarkup
    exact mchunks_build segs p0 0 hp0
      (fun tp htp => ⟨(goodTag_spec (hparts tp htp).1).1, (hparts tp htp).2⟩)
  obtain ⟨ts, hel, hmap⟩ :=
    elabM_buildChunks segs p0 0 none (fun tp htp => (hparts tp htp).1)
      (fun _ hsegnil => absurd hsegnil hne)
  have htok : tokenize_markup (buildMarkup p0 segs) = .ok ts := by
    rw [tokenize_markup, hchunks, hel]
  refine ⟨ts, htok, hmap, ?_⟩
  have hshape : ∀ t ∈ ts, ¬(t.plain = none ∧ t.code = none) := by
    intro t ht
    have hd : tokData t ∈ tokDataOf segs p0 := by
      rw [← hmap]
      exact List.mem_map_of_mem tokData ht
    rcases tokDataOf_mem segs p0 (tokData t) hd with ⟨q, hq⟩ | ⟨c, hc⟩
    · intro hcon
      rw [show tokData t = (t.plain, t.code) from rfl, hcon.1] at hq
      cases hq
    · intro hcon
      rw [show tokData t = (t.plain, t.code) from rfl, hcon.2] at hc
      simp at hc
  unfold markup_to_ansi
  rw [htok]
  simp only [Bind.bind, Except.bind]
  rw [mapM_to_sequence ts hshape]
  have hflat : (ts.map fun t => dataSeq (tokData t)).flatten = ansiOf segs p0 := by
    rw [show (ts.map fun t => dataSeq (tokData t)) = (ts.map tokData).map dataSeq by
      rw [List.map_map]; rfl]
    rw [hmap]
    exact dataSeq_flatten segs p0
  rw [show terminateReset = fun s => if reset.isSuffixOf s then s else s ++ reset from rfl]
  dsimp only
  rw [hflat]

/-! ### Round-trip lemmas: ANSI side -/

theorem validPlain_no_esc {p : Str} (hp : validPlain p = true) : esc ∉ p := by
  intro hmem
  exact validPlain_mem hp hmem (Or.inl rfl)

theorem codeSafe_mem {c : Str} (h : codeSafe c = true) {ch : Char} (hch : ch ∈ c) :
    ch ≠ 'm' ∧ ch ≠ '\n' ∧ ch ≠ esc := by
  have h2 := (Bool.and_eq_true _ _ |>.mp h).2
  have h3 := List.all_eq_true.mp h2 ch hch
  rcases Bool.or_eq_true _ _ |>.mp h3 with hd | hs
  · refine ⟨?_, ?_, ?_⟩ <;> rintro rfl <;> simp [Char.isDigit, esc] at hd
  · have : ch = ';' := by simpa using hs
    subst this
    refine ⟨by decide, by decide, by decide⟩

theorem ansiOf_last :
    ∀ (segs : List (Str × Str)) (p : Str), segs ≠ [] →
      ∃ S : Str, ansiOf segs p = S ++ lastPl segs ∧ S.reverse.head? = some 'm' := by
  intro segs
  induction segs with
  | nil => intro p h; exact absurd rfl h
  | cons seg rest ih =>
      intro p _
      rcases seg with ⟨t, pl⟩
      cases rest with
      | nil =>
          refine ⟨p ++ esc :: '[' :: codeOf t ++ ['m'], ?_, ?_⟩
          · rw [ansiOf, ansiOf]
            simp [lastPl]
          · rw [List.reverse_append]
            simp
      | cons seg2 rest2 =>
          obtain ⟨S', hS', hhead⟩ := ih pl (by simp)
          refine ⟨p ++ esc :: '[' :: codeOf t ++ ['m'] ++ S', ?_, ?_⟩
          · rw [ansiOf, hS']
            have hlast : lastPl ((t, pl) :: seg2 :: rest2) = lastPl (seg2 :: rest2) := rfl
            rw [hlast]
            simp
          · rcases hsr : S'.reverse with _ | ⟨c0, srest⟩
            · rw [hsr] at hhead; cases hhead
            · have hc0 : c0 = 'm' := by rw [hsr] at hhead; simpa using hhead
              subst hc0
              rw [List.reverse_append, hsr]
              rfl

theorem not_reset_suffix (s pl : Str) (hs : s.reverse.head? = some 'm')
    (hne : pl ≠ []) (hesc : esc ∉ pl) : reset.isSuffixOf (s ++ pl) = false := by
  rw [← Bool.not_eq_true]
  intro hsuffix
  have hsuf : reset <:+ s ++ pl := List.isSuffixOf_iff_suffix.mp hsuffix
  have hpre : reset.reverse <+: (s ++ pl).reverse := List.reverse_prefix.mpr hsuf
  rw [List.reverse_append] at hpre
  have hrev : reset.reverse = 'm' :: '0' :: '[' :: esc :: [] := by decide
  rw [hrev] at hpre
  rcases hq : pl.reverse with _ | ⟨q0, qr⟩
  · exact hne (by simpa using congrArg List.reverse hq)
  rw [hq] at hpre
  rcases hsr : s.reverse with _ | ⟨m0, sr⟩
  · rw [hsr] at hs; cases hs
  have hm0 : m0 = 'm' := by rw [hsr] at hs; simpa using hs
  subst hm0
  rw [hsr] at hpre
  rw [List.cons_append, List.cons_prefix_cons] at hpre
  obtain ⟨-, hpre⟩ := hpre
  cases qr with
  | nil =>
      rw [List.nil_append, List.cons_prefix_cons] at hpre
      exact absurd hpre.1 (by decide)
  | cons q1 qr2 =>
      rw [List.cons_append, List.cons_prefix_cons] at hpre
      obtain ⟨-, hpre⟩ := hpre
      cases qr2 with
      | nil =>
          rw [List.nil_append, List.cons_prefix_cons] at hpre
          exact absurd hpre.1 (by decide)
      | cons q2 qr3 =>
          rw [List.cons_append, List.cons_prefix_cons] at hpre
          obtain ⟨-, hpre⟩ := hpre
          cases qr3 with
          | nil =>
              rw [List.nil_append, List.cons_prefix_cons] at hpre
              exact absurd hpre.1 (by decide)
          | cons q3 qr4 =>
              rw [List.cons_append, List.cons_prefix_cons] at hpre
              have hq3 : esc = q3 := hpre.1
              have : q3 ∈ pl.reverse := by rw [hq]; simp
              rw [List.mem_reverse] at this
              exact hesc (hq3 ▸ this)

theorem findM_build :
    ∀ (c : Str) (rest : Str), (∀ ch ∈ c, ch ≠ 'm' ∧ ch ≠ '\n') →
      findM (c ++ 'm' :: rest) = some (c, rest) := by
  intro c
  induction c with
  | nil => intro rest _; simp [findM]
  | cons ch c' ih =>
      intro rest hc
      have h1 := hc ch (by simp)
      rw [List.cons_append, findM, if_neg h1.1, if_neg h1.2]
      rw [ih rest (fun x hx => hc x (by simp [hx]))]
      rfl

theorem tryAnsi_none_head {s : Str} (h : s.head? ≠ some esc) : tryAnsi s = none := by
  unfold tryAnsi
  rcases s with _ | ⟨c1, _ | ⟨c2, rest⟩⟩
  · rfl
  · rfl
  · have hc1 : c1 ≠ esc := by simpa using h
    dsimp only
    rw [if_neg (show ¬(c1 = esc ∧ c2 = '[') from fun hh => hc1 hh.1),
      if_neg (show ¬(c1 = esc ∧ c2 = ']') from fun hh => hc1 hh.1)]

theorem findAnsi_none_plain {p : Str} (hp : esc ∉ p) : findAnsi p = none := by
  induction p with
  | nil => rfl
  | cons ch p' ih =>
      rw [findAnsi, tryAnsi_none_head (by simp; intro hh; exact hp (hh ▸ List.mem_cons_self ch p'))]
      rw [ih (fun hm => hp (List.mem_cons_of_mem ch hm))]
      rfl

theorem findAnsi_build :
    ∀ (p c rest : Str), esc ∉ p → (∀ ch ∈ c, ch ≠ 'm' ∧ ch ≠ '\n') →
      findAnsi (p ++ esc :: '[' :: (c ++ 'm' :: rest)) =
        some (p.length, some c, c.length + 3, rest) := by
  intro p
  induction p with
  | nil =>
      intro c rest _ hc
      rw [List.nil_append, findAnsi]
      have htry : tryAnsi (esc :: '[' :: (c ++ 'm' :: rest)) =
          some (some c, c.length + 3, rest) := by
        unfold tryAnsi
        dsimp only
        rw [if_pos ⟨rfl, rfl⟩]
        rw [findM_build c rest hc]
        rfl
      rw [htry]
      rfl
  | cons ch p' ih =>
      intro c rest hp hc
      have hch : ch ≠ esc := fun hh => hp (hh ▸ List.mem_cons_self ch p')
      rw [List.cons_append, findAnsi]
      rw [tryAnsi_none_head (by simpa using hch)]
      rw [ih c rest (fun hm => hp (List.mem_cons_of_mem ch hm)) hc]
      rfl

theorem achunks_build :
    ∀ (segs : List (Str × Str)) (p : Str) (off : Nat), validPlain p = true →
      (∀ tp ∈ segs, goodTag tp.1 = true ∧ validPlain tp.2 = true) →
      achunks (ansiOf segs p ++ reset) off = buildAChunks segs p off := by
  intro segs
  induction segs with
  | nil =>
      intro p off hp _
      rw [ansiOf, achunks_eq]
      have hshape : p ++ reset = p ++ esc :: '[' :: (cs "0" ++ 'm' :: ([] : Str)) := rfl
      rw [hshape, findAnsi_build p (cs "0") [] (validPlain_no_esc hp) (by decide)]
      dsimp only
      rw [List.take_left' rfl]
      rw [achunks_eq]
      have hfa : findAnsi ([] : Str) = none := rfl
      rw [hfa]
      rw [buildAChunks]
      rw [show (cs "0").length + 3 = 4 from rfl]
  | cons seg rest ih =>
      intro p off hp hsegs
      rcases seg with ⟨t, pl⟩
      have hg := (hsegs (t, pl) (by simp)).1
      have hpl := (hsegs (t, pl) (by simp)).2
      have hcodesafe := (goodTag_spec hg).2.2.1
      rw [ansiOf, achunks_eq]
      have hshape : (p ++ esc :: '[' :: codeOf t ++ 'm' :: ansiOf rest pl) ++ reset =
          p ++ esc :: '[' :: (codeOf t ++ 'm' :: (ansiOf rest pl ++ reset)) := by
        simp
      rw [hshape, findAnsi_build p (codeOf t) (ansiOf rest pl ++ reset)
        (validPlain_no_esc hp)
        (fun ch hch => ⟨(codeSafe_mem hcodesafe hch).1, (codeSafe_mem hcodesafe hch).2.1⟩)]
      dsimp only
      rw [List.take_left' rfl]
      rw [ih pl (off + p.length + ((codeOf t).length + 3)) hpl
        (fun tp htp => hsegs tp (by simp [htp]))]
      rw [buildAChunks]
      have harith : off + p.length + ((codeOf t).length + 3) =
          off + p.length + (codeOf t).length + 3 := by omega
      rw [harith]

theorem elabA_buildAChunks :
    ∀ (segs : List (Str × Str)) (p : Str) (prev : Option Token) (off : Nat)
      (sp : Nat × Nat),
      (∀ tp ∈ segs, tp.2 ≠ ([] : Str)) →
      (p = [] → prev = none) →
      (elabA (buildAChunks segs p off) prev sp).map tokData = ansiTokDataOf segs p := by
  intro segs
  induction segs with
  | nil =>
      intro p prev off sp _ hprev
      rcases sp with ⟨s0, e0⟩
      rw [buildAChunks, ansiTokDataOf]
      have hout : elabA
          [AChunk.seq p (some (cs "0")) (off + p.length) (off + p.length + 4),
           AChunk.tail []] prev (s0, e0) =
          (if p.isEmpty then [] else
            [{ start := off + p.length, stop := off + p.length + 4, plain := some p }]) ++
            [{ start := off + p.length, stop := off + p.length + 4, code := some (cs "0") }] := by
        by_cases hp : p.isEmpty
        · rw [hprev (by simpa using hp)]
          simp [elabA, hp]
        · simp [elabA, hp]
      rw [hout]
      by_cases hp : p.isEmpty
      · simp [hp, tokData]
      · simp [hp, tokData]
  | cons seg rest ih =>
      intro p prev off sp hne hprev
      rcases seg with ⟨t, pl⟩
      rcases sp with ⟨s0, e0⟩
      rw [buildAChunks, ansiTokDataOf]
      have hplne : pl ≠ ([] : Str) := hne (t, pl) (by simp)
      have hrec := ih pl
        (some { start := off + p.length, stop := off + p.length + (codeOf t).length + 3,
                code := some (codeOf t) })
        (off + p.length + (codeOf t).length + 3)
        (off + p.length, off + p.length + (codeOf t).length + 3)
        (fun tp htp => hne tp (by simp [htp])) (fun h => absurd h hplne)
      have hout : elabA
          (AChunk.seq p (some (codeOf t)) (off + p.length)
              (off + p.length + (codeOf t).length + 3) ::
            buildAChunks rest pl (off + p.length + (codeOf t).length + 3)) prev (s0, e0) =
          (if p.isEmpty then [] else
            [{ start := off + p.length, stop := off + p.length + (codeOf t).length + 3,
               plain := some p }]) ++
            { start := off + p.length, stop := off + p.length + (codeOf t).length + 3,
              code := some (codeOf t) } ::
              elabA (buildAChunks rest pl (off + p.length + (codeOf t).length + 3))
                (some { start := off + p.length,
                        stop := off + p.length + (codeOf t).length + 3,
                        code := some (codeOf t) })
                (off + p.length, off + p.length + (codeOf t).length + 3) := by
        by_cases hp : p.isEmpty
        · rw [hprev (by simpa using hp)]
          simp [elabA, hp]
        · simp [elabA, hp]
      rw [hout]
      by_cases hp : p.isEmpty
      · simp only [hp, if_true, List.nil_append, List.map_cons, hrec, tokData]
      · simp only [hp, if_false, List.map_append, List.map_cons, List.map_nil, hrec, tokData,
          Bool.false_eq_true]

/-- `to_name` reads only the `plain` and `code` fields. -/
theorem to_name_data (t : Token) :
    t.to_name = Token.to_name { start := 0, stop := 0, plain := t.plain, code := t.code } := rfl

theorem map_tokData_cons {ts : List Token} {d : Option Str × Option Str}
    {ds : List (Option Str × Option Str)} (h : ts.map tokData = d :: ds) :
    ∃ t ts', ts = t :: ts' ∧ t.plain = d.1 ∧ t.code = d.2 ∧ ts'.map tokData = ds := by
  rcases ts with _ | ⟨t, ts'⟩
  · simp at h
  · rw [List.map_cons] at h
    have h1 : tokData t = d ∧ ts'.map tokData = ds := by
      constructor
      · exact (List.cons.injEq _ _ _ _ ▸ h).1
      · exact (List.cons.injEq _ _ _ _ ▸ h).2
    refine ⟨t, ts', rfl, ?_, ?_, h1.2⟩
    · rw [← h1.1]; rfl
    · rw [← h1.1]; rfl

theorem amGo_cons_code {t : Token} {ts : List Token} {m : Str} {ia : Bool}
    {br : List Str} {c n : Str} (hc : t.code = some c)
    (hn : t.to_name = .ok n) :
    amGo (t :: ts) m ia br = amGo ts m true (br ++ [n]) := by
  rw [amGo, hc]
  dsimp only
  rw [hn]
  rfl

theorem amGo_cons_plain {t : Token} {ts : List Token} {m : Str} {ia : Bool}
    {br : List Str} {q : Str} (hc : t.code = none) (hp : t.plain = some q) :
    amGo (t :: ts) m ia br =
      amGo ts ((if ia then m ++ '[' :: joinSpace br ++ [']'] else m) ++ q) ia
        (if ia then [] else br) := by
  rw [amGo, hc]
  dsimp only
  have hn : t.to_name = .ok q := by
    rw [to_name_data, hp]
    rfl
  rw [hn]
  rfl

theorem amGo_core :
    ∀ (segs : List (Str × Str)) (p : Str) (ts : List Token) (m : Str) (ia : Bool)
      (br : List Str),
      ts.map tokData = ansiTokDataOf segs p →
      (∀ tp ∈ segs, goodTag tp.1 = true) →
      amGo ts m ia br = .ok (amResult segs p m ia br) := by
  intro segs
  induction segs with
  | nil =>
      intro p ts m ia br hmap _
      rw [ansiTokDataOf] at hmap
      rw [amResult]
      by_cases hp : p.isEmpty
      · rw [if_pos hp, List.nil_append] at hmap
        obtain ⟨t0, ts', rfl, hplain, hcode, hrest⟩ := map_tokData_cons hmap
        have hts' : ts' = [] := List.map_eq_nil_iff.mp hrest
        subst hts'
        have hn0 : t0.to_name = .ok (cs "/") := by
          rw [to_name_data, hplain, hcode]
          decide
        rw [amGo_cons_code hcode hn0]
        rw [amGo]
        simp [hp]
      · rw [if_neg hp, List.cons_append, List.nil_append] at hmap
        obtain ⟨tp, ts1, rfl, hplain, hcode, hrest⟩ := map_tokData_cons hmap
        obtain ⟨t0, ts2, rfl, hplain0, hcode0, hrest0⟩ := map_tokData_cons hrest
        have hts2 : ts2 = [] := List.map_eq_nil_iff.mp hrest0
        subst hts2
        have hn0 : t0.to_name = .ok (cs "/") := by
          rw [to_name_data, hplain0, hcode0]
          decide
        rw [amGo_cons_plain hcode hplain, amGo_cons_code hcode0 hn0, amGo]
        simp [hp]
  | cons seg rest ih =>
      intro p ts m ia br hmap hgood
      rcases seg with ⟨t, pl⟩
      have hg := hgood (t, pl) (by simp)
      have hname : Token.to_name { start := 0, stop := 0, code := some (codeOf t) } =
          .ok (nameOf t) := (goodTag_spec hg).2.2.2.1
      rw [ansiTokDataOf] at hmap
      rw [amResult]
      by_cases hp : p.isEmpty
      · rw [if_pos hp, List.nil_append] at hmap
        obtain ⟨tc, ts', rfl, hplain, hcode, hrest⟩ := map_tokData_cons hmap
        have hnc : tc.to_name = .ok (nameOf t) := by
          rw [to_name_data, hplain, hcode]
          exact hname
        rw [amGo_cons_code hcode hnc]
        simp only [hp, if_true]
        exact ih pl ts' m true (br ++ [nameOf t]) hrest
          (fun tp htp => hgood tp (by simp [htp]))
      · rw [if_neg hp, List.cons_append, List.nil_append] at hmap
        obtain ⟨tq, ts1, rfl, hplain, hcode, hrest⟩ := map_tokData_cons hmap
        obtain ⟨tc, ts2, rfl, hplain0, hcode0, hrest0⟩ := map_tokData_cons hrest
        have hnc : tc.to_name = .ok (nameOf t) := by
          rw [to_name_data, hplain0, hcode0]
          exact hname
        rw [amGo_cons_plain hcode hplain, amGo_cons_code hcode0 hnc]
        simp only [hp, Bool.false_eq_true, if_false]
        exact ih pl ts2 _ true _ hrest0 (fun tp htp => hgood tp (by simp [htp]))

theorem goodSeg_spec {tp : Str × Str} (h : goodSeg tp = true) :
    goodTag tp.1 = true ∧ validPlain tp.2 = true ∧ tp.2 ≠ [] := by
  unfold goodSeg at h
  obtain ⟨h1, h3⟩ := Bool.and_eq_true _ _ |>.mp h
  obtain ⟨h1a, h1b⟩ := Bool.and_eq_true _ _ |>.mp h1
  refine ⟨h1a, h1b, ?_⟩
  intro hnil
  rw [hnil] at h3
  cases h3

theorem goodTag_name {t : Str} (h : goodTag t = true) : goodTag (nameOf t) = true := by
  obtain ⟨-, -, hcs, hnm, hts, a', hres⟩ := goodTag_spec h
  unfold goodTag
  rw [hres]
  dsimp only
  rw [hnm]
  dsimp only
  rw [hres]
  dsimp only
  simp [hts, hcs]

theorem lastPl_mem :
    ∀ (segs : List (Str × Str)), segs ≠ [] → ∃ tp ∈ segs, lastPl segs = tp.2 := by
  intro segs
  induction segs with
  | nil => intro h; exact absurd rfl h
  | cons seg rest ih =>
      intro _
      cases rest with
      | nil => exact ⟨seg, by simp, rfl⟩
      | cons seg2 rest2 =>
          obtain ⟨tp, htp, heq⟩ := ih (by simp)
          exact ⟨tp, by simp [htp], heq⟩

theorem codeOf_name {t : Str} (h : goodTag t = true) : codeOf (nameOf t) = codeOf t := by
  obtain ⟨-, -, -, -, -, a', hres⟩ := goodTag_spec h
  conv_lhs => unfold codeOf
  rw [hres]

theorem tokDataOf_mapped :
    ∀ (segs : List (Str × Str)) (p0 : Str), (∀ tp ∈ segs, goodTag tp.1 = true) →
      tokDataOf (segs.map (fun tp => (nameOf tp.1, tp.2)) ++ [(cs "/", [])]) p0 =
        tokDataOf segs p0 ++ [(none, some (cs "0"))] := by
  intro segs
  induction segs with
  | nil =>
      intro p0 _
      by_cases hp : p0.isEmpty
      · simp [tokDataOf, hp, show codeOf (cs "/") = cs "0" from by decide]
      · simp [tokDataOf, hp, show codeOf (cs "/") = cs "0" from by decide]
  | cons seg rest ih =>
      intro p0 hgood
      rcases seg with ⟨t, pl⟩
      rw [List.map_cons, List.cons_append, tokDataOf, tokDataOf]
      rw [codeOf_name (hgood (t, pl) (by simp))]
      rw [ih pl (fun tp htp => hgood tp (by simp [htp]))]
      simp

theorem render_snoc_code :
    ∀ (ds : List (Option Str × Option Str)) (st : List Str) (c : Str),
      render (ds ++ [(none, some c)]) st = render ds st := by
  intro ds
  induction ds with
  | nil => intro st c; rw [List.nil_append, render, render, render]
  | cons d rest ih =>
      intro st c
      rcases d with ⟨dp, dc⟩
      rcases dp with _ | q
      · rcases dc with _ | cc
        · rw [List.cons_append, render, render, ih]
        · rw [List.cons_append, render, render, ih]
      · rw [List.cons_append, render, render, ih]

theorem amResult_inner :
    ∀ (segs : List (Str × Str)) (p m n : Str), p ≠ [] → (∀ tp ∈ segs, tp.2 ≠ []) →
      amResult segs p m true [n] =
        m ++ '[' :: n ++ ']' ::
          (p ++ ((segs.map fun tp => '[' :: nameOf tp.1 ++ ']' :: tp.2).flatten ++ cs "[/]")) := by
  intro segs
  induction segs with
  | nil =>
      intro p m n hp _
      have hpe : p.isEmpty = false := by
        cases p
        · exact absurd rfl hp
        · rfl
      rw [amResult]
      simp [hpe, joinSpace, cs]
  | cons seg rest ih =>
      intro p m n hp hne
      rcases seg with ⟨t, pl⟩
      have hpe : p.isEmpty = false := by
        cases p
        · exact absurd rfl hp
        · rfl
      rw [amResult]
      simp only [hpe, Bool.false_eq_true, if_false, if_true, List.nil_append]
      rw [show joinSpace [n] = n from rfl]
      rw [ih pl _ (nameOf t) (hne (t, pl) (by simp)) (fun tp htp => hne tp (by simp [htp]))]
      simp

theorem amResult_top :
    ∀ (segs : List (Str × Str)) (p0 : Str), segs ≠ [] → (∀ tp ∈ segs, tp.2 ≠ []) →
      amResult segs p0 [] false [] =
        buildMarkup p0 (segs.map (fun tp => (nameOf tp.1, tp.2)) ++ [(cs "/", [])]) := by
  intro segs p0 hne hpl
  rcases segs with _ | ⟨⟨t, pl⟩, rest⟩
  · exact absurd rfl hne
  rw [amResult]
  have hm1 : (if p0.isEmpty then ([] : Str)
      else (if (false : Bool) = true then [] ++ '[' :: joinSpace [] ++ [']'] else []) ++ p0) = p0 := by
    by_cases hp : p0.isEmpty
    · rw [if_pos hp]
      exact (by simpa using hp : p0 = []).symm
    · rw [if_neg hp]
      simp
  have hbr1 : (if p0.isEmpty then ([] : List Str)
      else if (false : Bool) = true then [] else []) = [] := by
    by_cases hp : p0.isEmpty
    · rw [if_pos hp]
    · rw [if_neg hp, if_neg (by simp)]
  rw [hm1, hbr1]
  rw [show ([] : List Str) ++ [nameOf t] = [nameOf t] from rfl]
  rw [amResult_inner rest pl p0 (nameOf t) (hpl (t, pl) (by simp))
    (fun tp htp => hpl tp (by simp [htp]))]
  rw [buildMarkup]
  simp [cs]
  exact congrArg List.flatten (List.map_congr_left fun tp _ => rfl)

theorem ansi_to_markup_build (p0 : Str) (segs : List (Str × Str))
    (hp0 : validPlain p0 = true) (hsegs : ∀ tp ∈ segs, goodSeg tp = true)
    (hne : segs ≠ []) :
    ansi_to_markup (terminateReset (ansiOf segs p0)) =
      .ok (buildMarkup p0 (segs.map (fun tp => (nameOf tp.1, tp.2)) ++ [(cs "/", [])])) := by
  have hplparts : ∀ tp ∈ segs, goodTag tp.1 = true ∧ validPlain tp.2 = true :=
    fun tp htp => ⟨(goodSeg_spec (hsegs tp htp)).1, (goodSeg_spec (hsegs tp htp)).2.1⟩
  have hplne : ∀ tp ∈ segs, tp.2 ≠ ([] : Str) :=
    fun tp htp => (goodSeg_spec (hsegs tp htp)).2.2
  obtain ⟨S, hS, hhead⟩ := ansiOf_last segs p0 hne
  obtain ⟨tpl, htpl, hlast⟩ := lastPl_mem segs hne
  have hlastne : lastPl segs ≠ [] := by rw [hlast]; exact hplne tpl htpl
  have hlastesc : esc ∉ lastPl segs := by
    rw [hlast]
    exact validPlain_no_esc (hplparts tpl htpl).2
  have hnosuf : reset.isSuffixOf (ansiOf segs p0) = false := by
    rw [hS]
    exact not_reset_suffix S _ hhead hlastne hlastesc
  have hterm : terminateReset (ansiOf segs p0) = ansiOf segs p0 ++ reset := by
    rw [terminateReset, if_neg (by simp [hnosuf])]
  have htokenize : tokenize_ansi (terminateReset (ansiOf segs p0)) =
      elabA (buildAChunks segs p0 0) none (0, 0) := by
    rw [tokenize_ansi, terminateReset_of_suffix (terminateReset_endsWith _), hterm]
    rw [achunks_build segs p0 0 hp0 hplparts]
  have hdata := elabA_buildAChunks segs p0 none 0 (0, 0) hplne (fun _ => rfl)
  rw [ansi_to_markup, htokenize]
  rw [amGo_core segs p0 _ [] false [] hdata (fun tp htp => (hplparts tp htp).1)]
  rw [amResult_top segs p0 hne hplne]

/-- C1 (counterexample): `"hi"` is a well-formed markup string whose every
bracket group (there are none) uses only single, non-duplicated tags, yet
`markup_to_ansi "hi"` raises `UnboundLocalError` (`start` is read before
assignment when no tag matches), so the round trip produces nothing
semantically equivalent to `"hi"`. -/
theorem C1_counterexample :
    specWellFormedSingle (cs "hi") = true ∧
      markup_to_ansi (cs "hi") = .error .unboundLocal := by
  decide

/-- C1 (amended): for markup built from an optional clean leading plain
segment and one or more single-tag bracket groups, each holding a
round-tripping tag and followed by a nonempty clean plain segment,
`ansi_to_markup (markup_to_ansi m)` succeeds and the resulting markup
tokenizes to a stream with the same rendered text and resolved attribute
codes as `m` — the only additions being a trailing clear-all group and
canonical respelling inside groups. -/
theorem C1_roundtrip (p0 : Str) (segs : List (Str × Str))
    (hp0 : validPlain p0 = true) (hsegs : ∀ tp ∈ segs, goodSeg tp = true)
    (hne : segs ≠ []) :
    ∃ (a m' : Str) (ts ts' : List Token),
      markup_to_ansi (buildMarkup p0 segs) = .ok a ∧
      ansi_to_markup a = .ok m' ∧
      tokenize_markup (buildMarkup p0 segs) = .ok ts ∧
      tokenize_markup m' = .ok ts' ∧
      render (ts'.map tokData) [] = render (ts.map tokData) [] := by
  obtain ⟨ts, htok, hmap, hconv⟩ := markup_to_ansi_build p0 segs hp0 hsegs hne
  have hgoodtags : ∀ tp ∈ segs, goodTag tp.1 = true :=
    fun tp htp => (goodSeg_spec (hsegs tp htp)).1
  have hsegs'cond : ∀ tp ∈ segs.map (fun tp => (nameOf tp.1, tp.2)) ++ [(cs "/", [])],
      goodTag tp.1 = true ∧ validPlain tp.2 = true := by
    intro tp htp
    rcases List.mem_append.mp htp with h1 | h1
    · obtain ⟨tq, htq, rfl⟩ := List.mem_map.mp h1
      exact ⟨goodTag_name (hgoodtags tq htq),
        (goodSeg_spec (hsegs tq htq)).2.1⟩
    · have : tp = (cs "/", ([] : Str)) := List.mem_singleton.mp h1
      subst this
      exact ⟨by decide, by decide⟩
  have hchunks' : mchunks
      (buildMarkup p0 (segs.map (fun tp => (nameOf tp.1, tp.2)) ++ [(cs "/", [])])) 0 =
      buildChunks (segs.map (fun tp => (nameOf tp.1, tp.2)) ++ [(cs "/", [])]) p0 0 := by
    unfold buildMarkup
    exact mchunks_build _ p0 0 hp0
      (fun tp htp => ⟨(goodTag_spec (hsegs'cond tp htp).1).1, (hsegs'cond tp htp).2⟩)
  obtain ⟨ts', hel', hmap'⟩ :=
    elabM_buildChunks (segs.map (fun tp => (nameOf tp.1, tp.2)) ++ [(cs "/", [])]) p0 0 none
      (fun tp htp => (hsegs'cond tp htp).1)
      (fun _ h => absurd h (by simp))
  have htok' : tokenize_markup
      (buildMarkup p0 (segs.map (fun tp => (nameOf tp.1, tp.2)) ++ [(cs "/", [])])) = .ok ts' := by
    rw [tokenize_markup, hchunks', hel']
  have ham := ansi_to_markup_build p0 segs hp0 hsegs hne
  refine ⟨terminateReset (ansiOf segs p0),
    buildMarkup p0 (segs.map (fun tp => (nameOf tp.1, tp.2)) ++ [(cs "/", [])]),
    ts, ts', hconv, ham, htok, htok', ?_⟩
  rw [hmap, hmap']
  rw [tokDataOf_mapped segs p0 hgoodtags]
  exact render_snoc_code _ [] (cs "0")

/-- Witness for C1 at `"[bold]hi"`. -/
theorem C1_roundtrip_witness :
    ∃ (a m' : Str) (ts ts' : List Token),
      markup_to_ansi (buildMarkup (cs "") [(cs "bold", cs "hi")]) = .ok a ∧
      ansi_to_markup a = .ok m' ∧
      tokenize_markup (buildMarkup (cs "") [(cs "bold", cs "hi")]) = .ok ts ∧
      tokenize_markup m' = .ok ts' ∧
      render (ts'.map tokData) [] = render (ts.map tokData) [] :=
  C1_roundtrip (cs "") [(cs "bold", cs "hi")] (by decide) (by decide) (by decide)

end PTG
